import Mathlib

/- Verification development for the floor-3D compositing pipeline.

   The TypeScript/GLSL sources are shallowly embedded: dense pixel grids become
   functions from the row-major index to a value, imperative write loops become
   folds over the loop's index list, IEEE floats become exact rationals, and the
   opaque numeric primitives of the host (Math.sqrt, Math.random, the sin-based
   GLSL hash, cos/sin of user angles, and the browser PNG decoder) are threaded
   as explicit function parameters.  Fallible code returns Except. -/

set_option maxHeartbeats 2000000

/-- Pointwise update of a grid represented as a function from row-major index
to value (a single JS array store `a[j] = v`). -/
def updFn {α : Type} (m : ℕ → α) (j : ℕ) (v : α) : ℕ → α :=
  fun i => if i = j then v else m i

/-- Write loop storing the constant `v` at every index in `l` (in order). -/
def writeConst {α : Type} (v : α) (m : ℕ → α) (l : List ℕ) : ℕ → α :=
  l.foldl (fun acc j => updFn acc j v) m

/-- Nested write loop: for each loop item `b`, store the constant `v` at the
indices `f b` (an empty list encodes a false loop-body condition). -/
def writeSweep {α β : Type} (v : α) (m : ℕ → α) (items : List β) (f : β → List ℕ) : ℕ → α :=
  items.foldl (fun acc b => writeConst v acc (f b)) m

/-- Row-major pixel enumeration of a `width×height` grid, `(x, y)` pairs in the
order of the JS nested loops `for y { for x { ... } }`. -/
def pixelSweep (w h : ℕ) : List (ℕ × ℕ) :=
  (List.range h).flatMap (fun y => (List.range w).map (fun x => (x, y)))

/-- Interior pixels only: the JS loops `for (y = 1; y < h-1; ...) for (x = 1; x < w-1; ...)`. -/
def interiorSweep (w h : ℕ) : List (ℕ × ℕ) :=
  ((List.range h).filter (fun y => decide (1 ≤ y ∧ y + 1 < h))).flatMap
    (fun y => ((List.range w).filter (fun x => decide (1 ≤ x ∧ x + 1 < w))).map (fun x => (x, y)))

/-- Offsets `-r .. r` for a square structuring element of radius `r`. -/
def deltaList (r : ℕ) : List ℤ :=
  (List.range (2 * r + 1)).map (fun t => (t : ℤ) - (r : ℤ))

/-- Decides whether `sub` is a leading segment of `l` (character by character). -/
def charsLead : List Char → List Char → Bool
  | [], _ => true
  | _ :: _, [] => false
  | a :: as, b :: bs => a == b && charsLead as bs

/-- Decides whether `sub` occurs contiguously inside `l`; the semantics of the
JS `String.prototype.includes`. -/
def charsHaveSub (sub : List Char) : List Char → Bool
  | [] => sub.isEmpty
  | c :: t => charsLead sub (c :: t) || charsHaveSub sub t

/-- The JS substring test `s.includes(sub)`. -/
def strIncludes (s sub : String) : Bool :=
  charsHaveSub sub.data s.data

/-- The JS `s.toLowerCase()`: lowercase character by character. -/
def strLower (s : String) : String :=
  ⟨s.data.map Char.toLower⟩

/- GLSL numeric builtins over exact rationals. -/

/-- GLSL `floor` as a rational-valued function. -/
def qfloor (x : ℚ) : ℚ := (⌊x⌋ : ℚ)

/-- GLSL `fract(x) = x - floor(x)`. -/
def qfract (x : ℚ) : ℚ := x - qfloor x

/-- GLSL `mod(x, y) = x - y * floor(x / y)`. -/
def glslMod (x y : ℚ) : ℚ := x - y * qfloor (x / y)

/-- GLSL `clamp`. -/
def clampQ (x lo hi : ℚ) : ℚ := min (max x lo) hi

/-- GLSL `mix(a, b, t) = a * (1 - t) + b * t`. -/
def mixQ (a b t : ℚ) : ℚ := a * (1 - t) + b * t

/-- GLSL `smoothstep(e0, e1, x)`. -/
def smoothstepQ (e0 e1 x : ℚ) : ℚ :=
  let t := clampQ ((x - e0) / (e1 - e0)) 0 1
  t * t * (3 - 2 * t)

/- part_004: homography computation (Direct Linear Transform entry point). -/

/-- Identity 3×3 homography, flat in the source's array order
`[h11,h12,h13, h21,h22,h23, h31,h32,h33]` (computeFallbackHomography). -/
def computeFallbackHomography : List ℚ :=
  [1, 0, 0,
   0, 1, 0,
   0, 0, 1]

/-- The source's solveDLT: the comment in part_004 promises an SVD solve of
`Ah = 0` but the body ignores `_A` and returns the fallback homography. -/
def solveDLT (_A : List (List ℚ)) : List ℚ :=
  computeFallbackHomography

/-- computeHomography from part_004: validates that exactly 4 correspondences
were given (otherwise the JS throws), builds the 8×9 DLT matrix `A`, and
returns `solveDLT A`. -/
def computeHomography (srcPoints dstPoints : List (ℚ × ℚ)) : Except String (List ℚ) :=
  if srcPoints.length ≠ 4 ∨ dstPoints.length ≠ 4 then
    Except.error ("Need exactly 4 point correspondences")
  else
    let A := (List.range 4).flatMap (fun i =>
      let src := srcPoints.getD i (0, 0)
      let dst := dstPoints.getD i (0, 0)
      [[src.1, src.2, 1, 0, 0, 0, -dst.1 * src.1, -dst.1 * src.2, -dst.1],
       [0, 0, 0, src.1, src.2, 1, -dst.2 * src.1, -dst.2 * src.2, -dst.2]])
    Except.ok (solveDLT A)

/-- Application of a flat 3×3 homography to a point: matrix multiply then
perspective divide by the third homogeneous component. -/
def perspApply (hm : List ℚ) (p : ℚ × ℚ) : ℚ × ℚ :=
  let q1 := hm.getD 0 0 * p.1 + hm.getD 1 0 * p.2 + hm.getD 2 0
  let q2 := hm.getD 3 0 * p.1 + hm.getD 4 0 * p.2 + hm.getD 5 0
  let q3 := hm.getD 6 0 * p.1 + hm.getD 7 0 * p.2 + hm.getD 8 0
  (q1 / q3, q2 / q3)

/- illumination.ts: min/max normalization of the blurred luminance field. -/

/-- JS `Math.min(...a)` over a nonempty array (the empty case, which JS maps to
Infinity, is outside every claim's domain and is given the junk value 0). -/
def arrMin : List ℚ → ℚ
  | [] => 0
  | x :: xs => xs.foldl min x

/-- JS `Math.max(...a)` over a nonempty array (junk value 0 on empty input). -/
def arrMax : List ℚ → ℚ
  | [] => 0
  | x :: xs => xs.foldl max x

/-- normalizeLuminance from illumination.ts: rescale to `[0.8, 1.2]`, or the
constant 1.0 field when the range is zero. -/
def normalizeLuminance (luminance : List ℚ) : List ℚ :=
  let mn := arrMin luminance
  let mx := arrMax luminance
  let range := mx - mn
  if range = 0 then
    List.replicate luminance.length 1
  else
    luminance.map (fun v => 0.8 + (v - mn) / range * 0.4)

/- part_003 / floor.frag.glsl: the pattern compositor fragment shader.
   Texture samplers and the transcendental helpers (the sin-based hash and the
   cos/sin values of the rotation angles) are opaque inputs of the shader run
   and are therefore fields of the environment. -/

/-- Shader environment: uniforms, samplers and transcendental oracles of one
fragment-shader invocation.  `cosR`/`sinR` are `cos(uRotation)`/`sin(uRotation)`
and `cos45`/`sin45` are `cos(radians(45))`/`sin(radians(45))`; byte colors are
scaled to `[0,1]` as in GLSL (so 128 reads as `128/255`). -/
structure ShaderEnv where
  texPhoto : ℚ × ℚ → ℚ × ℚ × ℚ
  texWood : ℚ × ℚ → ℚ × ℚ × ℚ
  texFloorMask : ℚ × ℚ → ℚ
  texOccluderMask : ℚ × ℚ → ℚ
  texIllum : ℚ × ℚ → ℚ
  H : List ℚ
  imageSize : ℚ × ℚ
  cosR : ℚ
  sinR : ℚ
  scale : ℚ
  plankSize : ℚ × ℚ
  pattern : ℤ
  seed : ℚ
  hashF : ℚ × ℚ → ℚ
  cos45 : ℚ
  sin45 : ℚ

/-- Plank-cell index `floor(uv / plankSize)` (componentwise). -/
def cellOf (plank uv : ℚ × ℚ) : ℚ × ℚ :=
  (qfloor (uv.1 / plank.1), qfloor (uv.2 / plank.2))

/-- Local in-cell coordinate `fract(uv / plankSize)` (componentwise). -/
def localOf (plank uv : ℚ × ℚ) : ℚ × ℚ :=
  (qfract (uv.1 / plank.1), qfract (uv.2 / plank.2))

/-- Brick-branch local coordinate of part_003's main: the `0.5` horizontal
offset is applied when `mod(cell.y, 2.0) < 1.0`. -/
def brickLocal (plank uv : ℚ × ℚ) : ℚ × ℚ :=
  let lcl := localOf plank uv
  if glslMod (cellOf plank uv).2 2 < 1 then (lcl.1 + 0.5, lcl.2) else lcl

/-- Edge distance used for seam darkening:
`min(min(l.x, 1-l.x), min(l.y, 1-l.y))`. -/
def edgeOf (l : ℚ × ℚ) : ℚ :=
  min (min l.1 (1 - l.1)) (min l.2 (1 - l.2))

/-- The local coordinate from which the branch taken by part_003's main
computes its seam-darkening edge distance (brick uses the offset local,
herringbone and the random default use the plain local). -/
def patternLocal (pattern : ℤ) (plank uv : ℚ × ℚ) : ℚ × ℚ :=
  if pattern = 2 then localOf plank uv
  else if pattern = 1 then brickLocal plank uv
  else localOf plank uv

/-- sampleHerringbone from part_003: rotate the centred local coordinate by
±45° by cell parity, add hash jitter, sample the wood, darken seams with the
0.88 floor factor. -/
def sampleHerringbone (e : ShaderEnv) (uv : ℚ × ℚ) : ℚ × ℚ × ℚ :=
  let cell := cellOf e.plankSize uv
  let lcl := localOf e.plankSize uv
  let even := glslMod (cell.1 + cell.2) 2 < 1
  let ca := e.cos45
  let sa := if even then e.sin45 else -e.sin45
  let cx := lcl.1 - 0.5
  let cy := lcl.2 - 0.5
  let wuv0 := (ca * cx + sa * cy + 0.5, -sa * cx + ca * cy + 0.5)
  let j := e.hashF cell - 0.5
  let wuv := (wuv0.1 + j * 0.02, wuv0.2 + j * 0.02)
  let wood := e.texWood (qfract (wuv.1 * 4), qfract (wuv.2 * 4))
  let edge := edgeOf lcl
  let f := mixQ 0.88 1 (smoothstepQ 0 0.015 edge)
  (wood.1 * f, wood.2.1 * f, wood.2.2 * f)

/-- Screen position to floor UV: pixel coordinates, homography with perspective
divide, then the user scale and the `mat2(c,-s,s,c)` rotation exactly as GLSL
evaluates it (column-major constructor). -/
def shaderUV (e : ShaderEnv) (vPos : ℚ × ℚ) : ℚ × ℚ :=
  let px := (vPos.1 * e.imageSize.1, vPos.2 * e.imageSize.2)
  let uv0 := perspApply e.H px
  let sx := uv0.1 * e.scale
  let sy := uv0.2 * e.scale
  (e.cosR * sx + e.sinR * sy, -e.sinR * sx + e.cosR * sy)

/-- Wood sample of part_003's main for the branch selected by `uPattern`
(2 = herringbone, 1 = brick, anything else = random planks). -/
def patternWood (e : ShaderEnv) (uv : ℚ × ℚ) : ℚ × ℚ × ℚ :=
  if e.pattern = 2 then
    sampleHerringbone e uv
  else if e.pattern = 1 then
    let lcl := brickLocal e.plankSize uv
    let wuv := (qfract (lcl.1 * 2), qfract (lcl.2 * 2))
    let wood := e.texWood (qfract (wuv.1 * 4), qfract (wuv.2 * 4))
    let edge := edgeOf lcl
    let f := mixQ 0.9 1 (smoothstepQ 0 0.015 edge)
    (wood.1 * f, wood.2.1 * f, wood.2.2 * f)
  else
    let cell := cellOf e.plankSize uv
    let lcl := localOf e.plankSize uv
    let j := e.hashF (cell.1 + 0.37, cell.2 + 0.37) - 0.5
    let wuv := (lcl.1 + j * 0.02, lcl.2 + j * 0.02)
    let wood := e.texWood (qfract (wuv.1 * 4), qfract (wuv.2 * 4))
    let edge := edgeOf lcl
    let f := mixQ 0.9 1 (smoothstepQ 0 0.015 edge)
    (wood.1 * f, wood.2.1 * f, wood.2.2 * f)

/-- main of part_003: pattern-shaded wood, multiplied by the illumination
sample, blended over the photo with weight `floorMask * (1 - occluderMask)`;
all mask samples are taken at the screen position. -/
def shaderMain (e : ShaderEnv) (vPos : ℚ × ℚ) : ℚ × ℚ × ℚ :=
  let uv := shaderUV e vPos
  let wood := patternWood e uv
  let m := e.texFloorMask vPos
  let occ := e.texOccluderMask vPos
  let lum := e.texIllum vPos
  let base := e.texPhoto vPos
  let blend := m * (1 - occ)
  (mixQ base.1 (wood.1 * lum) blend,
   mixQ base.2.1 (wood.2.1 * lum) blend,
   mixQ base.2.2 (wood.2.2 * lum) blend)

/- part_005: getPlankUV of the FloorMaterialManager shader. -/

/-- getPlankUV from part_005 (patterns 0 = random, 1 = brick, 2 = herringbone,
3 = basket); `hashF` models its sin-based hash and `c45`/`s45` the cos/sin of
`PI * 0.25`. -/
def getPlankUV (hashF : ℚ × ℚ → ℚ) (seed : ℚ) (c45 s45 : ℚ)
    (plank : ℚ × ℚ) (uv : ℚ × ℚ) (patternType : ℤ) : ℚ × ℚ :=
  if patternType = 0 then
    let pc := cellOf plank uv
    let rv := hashF (pc.1 + seed, pc.2 + seed)
    (qfract (uv.1 / plank.1) + rv * 0.1, qfract (uv.2 / plank.2) + rv * 0.1)
  else if patternType = 1 then
    let l := localOf plank uv
    if glslMod (cellOf plank uv).2 2 > 0.5 then (l.1 + 0.5, l.2) else l
  else if patternType = 2 then
    let l := localOf plank uv
    let row := (cellOf plank uv).2
    if glslMod row 2 > 0.5 then
      let lx := l.1 + 0.5
      (c45 * (lx - 0.5) - s45 * (l.2 - 0.5) + 0.5,
       s45 * (lx - 0.5) + c45 * (l.2 - 0.5) + 0.5)
    else l
  else if patternType = 3 then
    let l := localOf plank uv
    let row := (cellOf plank uv).2
    let col := (cellOf plank uv).1
    let l1 := if glslMod row 2 > 0.5 then (l.1 + plank.1 * 0.5, l.2) else l
    if glslMod col 2 > 0.5 then (l1.1, l1.2 + plank.2 * 0.5) else l1
  else
    uv

/- Shared flood-fill engine.  Both masks.ts (recursive DFS) and models.ts
   (explicit stack) implement the same guarded exploration; the traversal is
   embedded with an explicit work stack whose processing order is the
   source's recursion/pop order, a visited list (the JS `Set` of indices),
   and a fuel argument large enough to never run out (see ffFuel). -/

/-- Row-major index of an integer pixel coordinate, `y * width + x`
(total via `Int.toNat`; only in-bounds coordinates are ever stored). -/
def idxZ (w : ℕ) (p : ℤ × ℤ) : ℕ :=
  (p.2 * (w : ℤ) + p.1).toNat

/-- In-bounds test of the flood-fill guard
`!(x < 0 || x >= width || y < 0 || y >= height)`. -/
abbrev inB (w h : ℕ) (p : ℤ × ℤ) : Prop :=
  0 ≤ p.1 ∧ p.1 < (w : ℤ) ∧ 0 ≤ p.2 ∧ p.2 < (h : ℤ)

/-- Neighbor order of the recursive DFS in masks.ts (the first recursive call
is explored first). -/
def nbrsDFS (p : ℤ × ℤ) : List (ℤ × ℤ) :=
  [(p.1 + 1, p.2), (p.1 - 1, p.2), (p.1, p.2 + 1), (p.1, p.2 - 1)]

/-- Neighbor order of the explicit-stack flood fill in models.ts: the four
pushes `[x+1,y],[x-1,y],[x,y+1],[x,y-1]` are popped in reverse. -/
def nbrsStack (p : ℤ × ℤ) : List (ℤ × ℤ) :=
  [(p.1, p.2 - 1), (p.1, p.2 + 1), (p.1 - 1, p.2), (p.1 + 1, p.2)]

/-- Flood-fill worker: pop a coordinate, skip it when out of bounds, already
visited, or not an on-pixel; otherwise mark it visited, append it to the
component and push its four neighbors.  Returns (visited, component). -/
def ffAux (w h : ℕ) (nbrs : ℤ × ℤ → List (ℤ × ℤ)) (ok : ℕ → Bool) :
    ℕ → List (ℤ × ℤ) → List ℕ → List ℕ → List ℕ × List ℕ
  | 0, _, visited, comp => (visited, comp)
  | _ + 1, [], visited, comp => (visited, comp)
  | fuel + 1, p :: rest, visited, comp =>
    if ¬ inB w h p ∨ idxZ w p ∈ visited ∨ ok (idxZ w p) = false then
      ffAux w h nbrs ok fuel rest visited comp
    else
      ffAux w h nbrs ok fuel (nbrs p ++ rest) (idxZ w p :: visited) (comp ++ [idxZ w p])

/-- Fuel that can never be exhausted: each processed stack entry either pops
one item, or pops one and pushes four while permanently visiting a fresh
in-range index (of which there are at most `w * h`). -/
def ffFuel (w h : ℕ) : ℕ := 5 * (w * h) + 1

/-- floodFill from masks.ts (mask values are floats, on-pixels are `> 0.5`). -/
def floodFillMasks (w h : ℕ) (m : ℕ → ℚ) (x y : ℤ) (visited : List ℕ) : List ℕ × List ℕ :=
  ffAux w h nbrsDFS (fun i => decide ((1 : ℚ)/2 < m i)) (ffFuel w h) [(x, y)] visited []

/-- floodFill from models.ts (mask values are bytes, on-pixels are `=== 255`). -/
def floodFillModels (w h : ℕ) (m : ℕ → ℕ) (x y : ℤ) (visited : List ℕ) : List ℕ × List ℕ :=
  ffAux w h nbrsStack (fun i => decide (m i = 255)) (ffFuel w h) [(x, y)] visited []

/- masks.ts: largestComponent, dilateErode, buildMasksFromSegmentation. -/

/-- Body of the scan loop of largestComponent: flood-fill the pixel when it is
an unvisited on-pixel, else keep the accumulator. -/
def lcStep (w h : ℕ) (m : ℕ → ℚ) (acc : List ℕ × List (List ℕ)) (pxy : ℕ × ℕ) :
    List ℕ × List (List ℕ) :=
  let j := pxy.2 * w + pxy.1
  if (1 : ℚ)/2 < m j ∧ j ∉ acc.1 then
    let r := floodFillMasks w h m (pxy.1 : ℤ) (pxy.2 : ℤ) acc.1
    (r.1, acc.2 ++ [r.2])
  else acc

/-- Scan loop of largestComponent: visit every pixel in row-major order and
flood-fill each unvisited on-pixel, accumulating (visited, components). -/
def lcScan (w h : ℕ) (m : ℕ → ℚ) : List ℕ × List (List ℕ) :=
  (pixelSweep w h).foldl (lcStep w h m) ([], [])

/-- The `reduce` of largestComponent: keep the longest component, the first
one on ties, starting from `components[0] || []`. -/
def chooseLargest (comps : List (List ℕ)) : List ℕ :=
  comps.foldl (fun best c => if c.length > best.length then c else best) (comps.headD [])

/-- largestComponent from masks.ts: 1.0 exactly on the pixels of the largest
4-connected component of the `> 0.5` region, 0 elsewhere. -/
def largestComponent (m : ℕ → ℚ) (w h : ℕ) : ℕ → ℚ :=
  fun i => if i ∈ chooseLargest (lcScan w h m).2 then 1 else 0

/-- The value pattern largestComponent actually outputs: 1.0 on a pixel list,
0.0 elsewhere. -/
def indicatorQ (c : List ℕ) : ℕ → ℚ :=
  fun i => if i ∈ c then 1 else 0

/-- In-bounds indices of the `(2r+1)×(2r+1)` square around `(x, y)` in the
order of the JS `dy`/`dx` loops (per-axis bounds checks as in dilateErode). -/
def nbhdR (w h r : ℕ) (x y : ℕ) : List ℕ :=
  (deltaList r).flatMap (fun dy => (deltaList r).flatMap (fun dx =>
    let nx := (x : ℤ) + dx
    let ny := (y : ℤ) + dy
    if 0 ≤ nx ∧ nx < (w : ℤ) ∧ 0 ≤ ny ∧ ny < (h : ℤ) then [(ny * w + nx).toNat] else []))

/-- dilateErode from masks.ts.  The dilation writes 1.0 into a copy of the
mask; the erosion pass then writes 0.0 into a SECOND copy of the ORIGINAL
mask (the JS initializes `eroded` from `mask`, not from `dilated`) at every
pixel of the dilated region whose radius-`r` in-bounds neighborhood is not
entirely dilated. -/
def dilateErode (m : ℕ → ℚ) (w h r : ℕ) : ℕ → ℚ :=
  let dilated := writeSweep (1 : ℚ) m (pixelSweep w h)
    (fun pxy => if (1 : ℚ)/2 < m (pxy.2 * w + pxy.1) then nbhdR w h r pxy.1 pxy.2 else [])
  writeSweep (0 : ℚ) m (pixelSweep w h)
    (fun pxy =>
      if (1 : ℚ)/2 < dilated (pxy.2 * w + pxy.1) ∧
          ¬ (∀ j ∈ nbhdR w h r pxy.1 pxy.2, (1 : ℚ)/2 < dilated j) then
        [pxy.2 * w + pxy.1]
      else [])

/-- Floor vocabulary of buildMasksFromSegmentation. -/
def floorLabelsClean : List String :=
  ["floor", "ground", "pavement", "road", "flooring", "wood floor", "tile"]

/-- Furniture vocabulary of buildMasksFromSegmentation. -/
def furnitureLabelsClean : List String :=
  ["cabinet", "table", "chair", "sofa", "bed", "appliance", "toilet", "sink",
   "counter", "desk", "nightstand"]

/-- One segmentation entry as consumed by buildMasksFromSegmentation; the
base64-PNG decode (decodeBase64PngToMask, browser canvas work) is modeled by
taking its decoded 0.0/1.0 grid as the entry's `maskGrid`. -/
structure SegClean where
  label : String
  maskGrid : ℕ → ℚ

/-- Per-pixel union `max` over the `width*height` indices of the decoded mask
(the JS union loops over `mask.length` entries). -/
def unionMax (w h : ℕ) (acc dm : ℕ → ℚ) : ℕ → ℚ :=
  fun i => if i < w * h then max (acc i) (dm i) else acc i

/-- Body of the segment loop of buildMasksFromSegmentation. -/
def buildMasksStep (w h : ℕ) (acc : (ℕ → ℚ) × (ℕ → ℚ)) (seg : SegClean) :
    (ℕ → ℚ) × (ℕ → ℚ) :=
  let isFloor := floorLabelsClean.any (fun l => strIncludes (strLower seg.label) l)
  let isFurn := furnitureLabelsClean.any (fun l => strIncludes (strLower seg.label) l)
  if isFloor || isFurn then
    let dm := seg.maskGrid
    let f1 := if isFloor then unionMax w h acc.1 dm else acc.1
    let f2 := if isFurn then unionMax w h acc.2 dm else acc.2
    (f1, f2)
  else acc

/-- Segment loop of buildMasksFromSegmentation, producing the raw
(floorMask, furnitureMask) pair before post-processing. -/
def buildMasksPair (segs : List SegClean) (w h : ℕ) : (ℕ → ℚ) × (ℕ → ℚ) :=
  segs.foldl (buildMasksStep w h) (fun _ => 0, fun _ => 0)

/-- Result record of buildMasksFromSegmentation. -/
structure BuildMasksR where
  floorMask : ℕ → ℚ
  furnitureMask : ℕ → ℚ
  W : ℕ
  H : ℕ

/-- buildMasksFromSegmentation from masks.ts: union the floor- and
furniture-labeled segment masks, then keep the largest floor component and
close the furniture mask with radius 2. -/
def buildMasksFromSegmentation (segs : List SegClean) (w h : ℕ) : BuildMasksR :=
  let p := buildMasksPair segs w h
  { floorMask := largestComponent p.1 w h
    furnitureMask := dilateErode p.2 w h 2
    W := w
    H := h }

/- models.ts: label vocabularies, createOcclusionMask and its helpers. -/

/-- FURNITURE_CLASSES from models.ts (verbatim, duplicates included). -/
def FURNITURE_CLASSES : List String :=
  ["cabinet", "table", "chair", "sofa", "counter", "appliance", "bed", "toilet",
   "sink", "refrigerator", "stove", "microwave", "dishwasher", "washing machine",
   "dryer", "tv", "monitor", "computer", "lamp", "light", "curtain", "blind",
   "plant", "vase", "book", "magazine", "newspaper", "phone", "remote", "key",
   "wallet", "bag", "backpack", "purse", "shoe", "boot", "sneaker", "sandal",
   "hat", "cap", "scarf", "glove", "sock", "underwear", "shirt", "pants",
   "dress", "skirt", "jacket", "coat", "sweater", "hoodie", "t-shirt", "jeans",
   "shorts", "tank top", "blouse", "cardigan", "vest", "tie", "belt", "watch",
   "ring", "necklace", "earring", "bracelet", "anklet", "glasses", "sunglasses",
   "contact lens", "hearing aid", "cane", "walker", "wheelchair", "crutch",
   "pillow", "blanket", "sheet", "comforter", "duvet", "mattress", "box spring",
   "headboard", "footboard", "nightstand", "dresser", "wardrobe", "closet",
   "mirror", "picture", "frame", "painting", "poster", "calendar", "clock",
   "alarm clock", "radio", "speaker", "headphone", "earphone", "microphone",
   "camera", "video camera", "tripod", "stand", "mount", "bracket", "shelf",
   "rack", "hook", "hanger", "rod", "pole", "pipe", "tube", "wire", "cable",
   "plug", "outlet", "switch", "button", "knob", "handle", "lever", "pedal",
   "footrest", "armrest", "backrest", "seat", "cushion", "pad", "mat", "rug",
   "carpet", "tile", "wood", "stone", "metal", "plastic", "glass", "ceramic",
   "fabric", "leather", "vinyl", "linoleum", "concrete", "brick", "marble",
   "granite", "slate", "limestone", "sandstone", "travertine", "onyx", "jade",
   "turquoise", "coral", "pearl", "diamond", "ruby", "emerald", "sapphire",
   "opal", "amber", "jet", "coal", "charcoal", "ash", "dust", "dirt", "mud",
   "sand", "gravel", "rock", "boulder", "cliff", "mountain", "hill", "valley",
   "canyon", "gorge", "ravine", "gully", "ditch", "trench", "moat", "pond",
   "lake", "river", "stream", "creek", "brook", "spring", "well", "fountain",
   "waterfall", "rapids", "whirlpool", "eddy", "current", "wave", "tide",
   "surf", "spray", "mist", "fog", "cloud", "rain", "snow", "sleet", "hail",
   "ice", "frost", "dew", "steam", "smoke", "fire", "flame", "spark", "ember",
   "coal", "charcoal", "wood", "paper", "cardboard", "fabric", "plastic",
   "rubber", "leather", "metal", "glass", "ceramic", "stone", "concrete"]

/-- FLOOR_CLASSES from models.ts (verbatim). -/
def FLOOR_CLASSES : List String :=
  ["floor", "ground", "pavement", "road", "street", "sidewalk", "path",
   "trail", "track", "lane", "driveway", "parking lot", "playground",
   "field", "meadow", "grass", "lawn", "turf", "soil", "earth", "dirt",
   "sand", "gravel", "stone", "rock", "concrete", "asphalt", "tile",
   "wood", "carpet", "rug", "mat", "linoleum", "vinyl", "marble",
   "granite", "slate", "limestone", "sandstone", "travertine"]

/-- The models.ts floor-label test
`FLOOR_CLASSES.some(c => label.includes(c))` (label already lowercased). -/
def floorHitModels (lbl : String) : Bool :=
  FLOOR_CLASSES.any (fun c => strIncludes lbl c)

/-- The models.ts furniture-label test. -/
def furnHitModels (lbl : String) : Bool :=
  FURNITURE_CLASSES.any (fun c => strIncludes lbl c)

/-- One segmentation entry of createOcclusionMask/toFloorMask: a label plus
the RGBA byte array of its ImageData mask (the loops read every 4th byte). -/
structure SegModel where
  label : String
  data : ℕ → ℕ

/-- Pixels a segment switches on: indices `i/4` of the segment's ImageData
bytes with `mask.data[i] > 128`, `i` a multiple of 4 below `4*w*h`. -/
def segPixList (w h : ℕ) (s : SegModel) : List ℕ :=
  (List.range (w * h)).filter (fun p => decide (128 < s.data (4 * p)))

/-- Segmentation loop of createOcclusionMask: floor-labeled segments are
written into the floor mask, otherwise furniture-labeled segments into the
furniture mask (`else if` in the source). -/
def segUnionMasks (segs : List SegModel) (w h : ℕ) : (ℕ → ℕ) × (ℕ → ℕ) :=
  segs.foldl
    (fun acc seg =>
      let lbl := strLower seg.label
      if floorHitModels lbl then (writeConst 255 acc.1 (segPixList w h seg), acc.2)
      else if furnHitModels lbl then (acc.1, writeConst 255 acc.2 (segPixList w h seg))
      else acc)
    (fun _ => 0, fun _ => 0)

/-- The 3×3 neighbor test of the erosion pass in postProcessMask (models.ts);
the neighborhood includes the center pixel and is read without bounds checks,
which stays in range for the interior pixels the loop visits. -/
def hasNbr255 (w : ℕ) (m : ℕ → ℕ) (x y : ℕ) : Prop :=
  ∃ dy ∈ deltaList 1, ∃ dx ∈ deltaList 1,
    m ((((y : ℤ) + dy) * w + ((x : ℤ) + dx)).toNat) = 255

instance (w : ℕ) (m : ℕ → ℕ) (x y : ℕ) : Decidable (hasNbr255 w m x y) := by
  unfold hasNbr255
  infer_instance

/-- Largest-component pass of postProcessMask: scan pixels in row-major order,
flood-fill unvisited 255-pixels, and keep the longest component seen
(strictly longer replaces).  Returns (visited, largest). -/
def ppScan (w h : ℕ) (m : ℕ → ℕ) : List ℕ × List ℕ :=
  (pixelSweep w h).foldl
    (fun acc pxy =>
      let j := pxy.2 * w + pxy.1
      if m j = 255 ∧ j ∉ acc.1 then
        let r := floodFillModels w h m (pxy.1 : ℤ) (pxy.2 : ℤ) acc.1
        (r.1, if r.2.length > acc.2.length then r.2 else acc.2)
      else acc)
    ([], [])

/-- postProcessMask from models.ts: zero interior 255-pixels without a 255 in
their 3×3 neighborhood (a no-op, since the neighborhood includes the pixel
itself), then keep only the largest 4-connected component. -/
def postProcessMask (m : ℕ → ℕ) (w h : ℕ) : ℕ → ℕ :=
  let processed := writeSweep 0 m (interiorSweep w h)
    (fun pxy =>
      if m (pxy.2 * w + pxy.1) = 255 ∧ ¬ hasNbr255 w m pxy.1 pxy.2 then
        [pxy.2 * w + pxy.1]
      else [])
  let largest := (ppScan w h processed).2
  fun i => if i ∈ largest then 255 else 0

/-- Fallback region of toFloorMask: all pixels of the rows from
`Math.floor(height * 0.4)` to the bottom. -/
def fallbackFloorList (w h : ℕ) : List ℕ :=
  let floorY := (⌊(h : ℚ) * (2/5)⌋).toNat
  ((List.range h).filter (fun y => decide (floorY ≤ y))).flatMap
    (fun y => (List.range w).map (fun x => y * w + x))

/-- toFloorMask from models.ts: binarize the first floor-labeled segment and
post-process it; with no floor-labeled segment, default to the bottom 60%
of the image. -/
def toFloorMask (segs : List SegModel) (w h : ℕ) : ℕ → ℕ :=
  match segs.find? (fun seg => floorHitModels (strLower seg.label)) with
  | none => writeConst 255 (fun _ => 0) (fallbackFloorList w h)
  | some seg => postProcessMask (fun p => if 128 < seg.data (4 * p) then 255 else 0) w h

/-- getPlaneDepth from models.ts: `z = -(a*x + b*y + d) / c` for the plane
`(a, b, c, d)`. -/
def getPlaneDepth (plane : ℚ × ℚ × ℚ × ℚ) (x y : ℚ) : ℚ :=
  -(plane.1 * x + plane.2.1 * y + plane.2.2.2) / plane.2.2.1

/-- Point collection of estimateFloorPlaneFromDepth: `(x, y, depth)` for every
floor-mask pixel with positive depth, in row-major order. -/
def collectFloorDepthPoints (depthData : ℕ → ℚ) (floorMask : ℕ → ℕ) (w h : ℕ) :
    List (ℚ × ℚ × ℚ) :=
  ((pixelSweep w h).filter
      (fun pxy => decide (floorMask (pxy.2 * w + pxy.1) = 255 ∧ 0 < depthData (pxy.2 * w + pxy.1)))).map
    (fun pxy => ((pxy.1 : ℚ), (pxy.2 : ℚ), depthData (pxy.2 * w + pxy.1)))

/-- fitPlaneThroughPoints from models.ts: plane through the first three
points via the normalized cross product (`sqrtF` models Math.sqrt). -/
def fitPlaneThroughPoints (sqrtF : ℚ → ℚ) (points : List (ℚ × ℚ × ℚ)) : ℚ × ℚ × ℚ × ℚ :=
  if points.length < 3 then (0, 0, 1, 0)
  else
    let p1 := points.getD 0 (0, 0, 0)
    let p2 := points.getD 1 (0, 0, 0)
    let p3 := points.getD 2 (0, 0, 0)
    let v1 := (p2.1 - p1.1, p2.2.1 - p1.2.1, p2.2.2 - p1.2.2)
    let v2 := (p3.1 - p1.1, p3.2.1 - p1.2.1, p3.2.2 - p1.2.2)
    let n := (v1.2.1 * v2.2.2 - v1.2.2 * v2.2.1,
              v1.2.2 * v2.1 - v1.1 * v2.2.2,
              v1.1 * v2.2.1 - v1.2.1 * v2.1)
    let len := sqrtF (n.1 * n.1 + n.2.1 * n.2.1 + n.2.2 * n.2.2)
    let nn := (n.1 / len, n.2.1 / len, n.2.2 / len)
    let d := -(nn.1 * p1.1 + nn.2.1 * p1.2.1 + nn.2.2 * p1.2.2)
    (nn.1, nn.2.1, nn.2.2, d)

/-- Point-to-plane distance of the RANSAC inlier test. -/
def pointPlaneDist (sqrtF : ℚ → ℚ) (pl : ℚ × ℚ × ℚ × ℚ) (pt : ℚ × ℚ × ℚ) : ℚ :=
  |pl.1 * pt.1 + pl.2.1 * pt.2.1 + pl.2.2.1 * pt.2.2 + pl.2.2.2| /
    sqrtF (pl.1 * pl.1 + pl.2.1 * pl.2.1 + pl.2.2.1 * pl.2.2.1)

/-- fitPlaneRANSAC from models.ts.  With fewer than 3 points it returns the
default plane `(0, 0, 1, 0)` at once; otherwise it runs `iterations` trials,
trial `i` sampling 3 points via `Math.floor(random * n)` (the random stream
`rand` is consumed three values per trial), and keeps the plane with the
strictly highest inlier count (threshold 0.1). -/
def fitPlaneRANSAC (sqrtF : ℚ → ℚ) (rand : ℕ → ℚ) (points : List (ℚ × ℚ × ℚ))
    (iterations : ℕ) : ℚ × ℚ × ℚ × ℚ :=
  if points.length < 3 then (0, 0, 1, 0)
  else
    ((List.range iterations).foldl
      (fun st i =>
        let sample := (List.range 3).map
          (fun j => points.getD (⌊rand (3 * i + j) * (points.length : ℚ)⌋).toNat (0, 0, 0))
        let plane := fitPlaneThroughPoints sqrtF sample
        let inliers :=
          (points.filter (fun pt => decide (pointPlaneDist sqrtF plane pt < 1/10))).length
        if inliers > st.2 then (plane, inliers) else st)
      ((0, 0, 1, 0), 0)).1

/-- estimateFloorPlaneFromDepth from models.ts (iteration count defaulted to
1000 at the call site). -/
def estimateFloorPlaneFromDepth (depthData : ℕ → ℚ) (floorMask : ℕ → ℕ) (w h : ℕ)
    (rand : ℕ → ℚ) (sqrtF : ℚ → ℚ) : ℚ × ℚ × ℚ × ℚ :=
  fitPlaneRANSAC sqrtF rand (collectFloorDepthPoints depthData floorMask w h) 1000

/-- Occluder construction loop of createOcclusionMask: mark floor pixels whose
depth is below the plane's predicted depth minus 0.1, and every furniture
pixel. -/
def occluderBase (floorM furnM : ℕ → ℕ) (depthData : ℕ → ℚ) (plane : ℚ × ℚ × ℚ × ℚ)
    (w h : ℕ) : ℕ → ℕ :=
  writeSweep 255 (fun _ => 0) (pixelSweep w h)
    (fun pxy =>
      let j := pxy.2 * w + pxy.1
      (if floorM j = 255 ∧ depthData j < getPlaneDepth plane (pxy.1 : ℚ) (pxy.2 : ℚ) - 1/10 then
        [j] else []) ++
      (if furnM j = 255 then [j] else []))

/-- In-bounds 3×3 write targets of the dilation in refineOccluderMask (the JS
checks `0 <= neighborIdx < mask.length`). -/
def nbhd9 (w h : ℕ) (x y : ℕ) : List ℕ :=
  (deltaList 1).flatMap (fun dy => (deltaList 1).flatMap (fun dx =>
    let nIdx : ℤ := ((y : ℤ) + dy) * w + ((x : ℤ) + dx)
    if 0 ≤ nIdx ∧ nIdx < ((w * h : ℕ) : ℤ) then [nIdx.toNat] else []))

/-- refineOccluderMask from models.ts: copy the mask, then for every INTERIOR
255-pixel write 255 into its full 3×3 neighborhood (border 255-pixels are
kept but not dilated, since the loops run over `1 .. width-2`/`1 .. height-2`). -/
def refineOccluderMask (m : ℕ → ℕ) (w h : ℕ) : ℕ → ℕ :=
  writeSweep 255 m (interiorSweep w h)
    (fun pxy => if m (pxy.2 * w + pxy.1) = 255 then nbhd9 w h pxy.1 pxy.2 else [])

/-- Result record of createOcclusionMask. -/
structure OcclusionMaskR where
  floorMask : ℕ → ℕ
  furnitureMask : ℕ → ℕ
  occluderMask : ℕ → ℕ
  depthPlane : ℚ × ℚ × ℚ × ℚ

/-- createOcclusionMask from models.ts: union the segment masks, post-process
the floor mask, fit the depth plane, build the occluder mask by depth test
plus furniture, and dilate it. -/
def createOcclusionMask (segs : List SegModel) (depthData : ℕ → ℚ) (w h : ℕ)
    (rand : ℕ → ℚ) (sqrtF : ℚ → ℚ) : OcclusionMaskR :=
  let um := segUnionMasks segs w h
  let pf := postProcessMask um.1 w h
  let plane := estimateFloorPlaneFromDepth depthData pf w h rand sqrtF
  let occ := occluderBase pf um.2 depthData plane w h
  { floorMask := pf
    furnitureMask := um.2
    occluderMask := refineOccluderMask occ w h
    depthPlane := plane }

/- Verification vocabulary (specification predicates and proof infrastructure). -/

/-- Guarantees of illumination normalization: on a non-flat field all outputs
lie in `[0.8, 1.2]` with the max mapping to 1.2 and the min to 0.8; a flat
field maps to the constant 1.0 field. -/
def NormSpec (lum : List ℚ) : Prop :=
  (arrMax lum ≠ arrMin lum →
    (∀ v ∈ normalizeLuminance lum, 0.8 ≤ v ∧ v ≤ 1.2) ∧
    (∀ i < lum.length, lum.getD i 0 = arrMax lum → (normalizeLuminance lum).getD i 0 = 1.2) ∧
    (∀ i < lum.length, lum.getD i 0 = arrMin lum → (normalizeLuminance lum).getD i 0 = 0.8)) ∧
  (arrMax lum = arrMin lum → normalizeLuminance lum = List.replicate lum.length 1)

/-- A coordinate is a valid unvisited on-pixel (the pass condition of the
flood-fill guard). -/
def goodPix (w h : ℕ) (ok : ℕ → Bool) (V : List ℕ) (p : ℤ × ℤ) : Prop :=
  inB w h p ∧ ok (idxZ w p) = true ∧ idxZ w p ∉ V

/-- Reachability through valid unvisited on-pixels, starting from a valid
unvisited on-pixel. -/
def ffReach (w h : ℕ) (nbrs : ℤ × ℤ → List (ℤ × ℤ)) (ok : ℕ → Bool) (V : List ℕ)
    (s q : ℤ × ℤ) : Prop :=
  goodPix w h ok V s ∧
    Relation.ReflTransGen (fun a b => b ∈ nbrs a ∧ goodPix w h ok V b) s q

/-- Structure of a component produced by the scan: it has a row-major-minimal
seed pixel from which every member is reachable inside the component. -/
def CompOK (w h : ℕ) (nbrs : ℤ × ℤ → List (ℤ × ℤ)) (c : List ℕ) : Prop :=
  ∃ s : ℤ × ℤ, inB w h s ∧ idxZ w s ∈ c ∧ (∀ j ∈ c, idxZ w s ≤ j) ∧ (∀ j ∈ c, j < w * h) ∧
    ∀ j ∈ c, ∃ q : ℤ × ℤ, idxZ w q = j ∧ inB w h q ∧
      Relation.ReflTransGen (fun a b => b ∈ nbrs a ∧ inB w h b ∧ idxZ w b ∈ c) s q

/-- Concrete shader environment of the compositor scenario: 4×4 image,
identity homography, unit scale, zero rotation, solid 128-gray wood over a
black photo, full floor mask, empty occluder mask, neutral illumination,
plank size (1, 0.2); pattern 1 (brick). -/
def envC5cex : ShaderEnv :=
  { texPhoto := fun _ => (0, 0, 0)
    texWood := fun _ => (128/255, 128/255, 128/255)
    texFloorMask := fun _ => 1
    texOccluderMask := fun _ => 0
    texIllum := fun _ => 1
    H := computeFallbackHomography
    imageSize := (4, 4)
    cosR := 1
    sinR := 0
    scale := 1
    plankSize := (1, 1/5)
    pattern := 1
    seed := 0
    hashF := fun _ => 0
    cos45 := 7/10
    sin45 := 7/10 }

/-- The same scenario with the random-plank pattern (pattern 0). -/
def envC5w : ShaderEnv :=
  { envC5cex with pattern := 0 }

/- Lemma library: write loops, pixel enumeration, index arithmetic. -/

theorem writeConst_cons {α : Type} (v : α) (m : ℕ → α) (a : ℕ) (t : List ℕ) :
    writeConst v m (a :: t) = writeConst v (updFn m a v) t := rfl

theorem writeConst_of_not_mem {α : Type} {v : α} {m : ℕ → α} {l : List ℕ} {i : ℕ}
    (h : i ∉ l) : writeConst v m l i = m i := by
  induction l generalizing m with
  | nil => rfl
  | cons a t ih =>
    rw [writeConst_cons]
    have h1 : i ≠ a := fun e => h (by simp [e])
    have h2 : i ∉ t := fun e => h (List.mem_cons_of_mem _ e)
    rw [ih h2]
    simp [updFn, h1]

theorem writeConst_of_mem {α : Type} {v : α} {m : ℕ → α} {l : List ℕ} {i : ℕ}
    (h : i ∈ l) : writeConst v m l i = v := by
  induction l generalizing m with
  | nil => cases h
  | cons a t ih =>
    rw [writeConst_cons]
    by_cases ht : i ∈ t
    · exact ih ht
    · have hia : i = a := by
        rcases List.mem_cons.mp h with h1 | h1
        · exact h1
        · exact absurd h1 ht
      rw [writeConst_of_not_mem ht]
      simp [updFn, hia]

theorem writeSweep_cons {α β : Type} (v : α) (m : ℕ → α) (a : β) (t : List β)
    (f : β → List ℕ) : writeSweep v m (a :: t) f = writeSweep v (writeConst v m (f a)) t f := rfl

theorem writeSweep_of_none {α β : Type} {v : α} {m : ℕ → α} {items : List β}
    {f : β → List ℕ} {i : ℕ} (h : ∀ b ∈ items, i ∉ f b) : writeSweep v m items f i = m i := by
  induction items generalizing m with
  | nil => rfl
  | cons a t ih =>
    rw [writeSweep_cons]
    rw [ih (fun b hb => h b (List.mem_cons_of_mem _ hb))]
    exact writeConst_of_not_mem (h a (List.mem_cons_self a t))

theorem writeSweep_of_ex {α β : Type} {v : α} {m : ℕ → α} {items : List β}
    {f : β → List ℕ} {i : ℕ} (h : ∃ b ∈ items, i ∈ f b) : writeSweep v m items f i = v := by
  induction items generalizing m with
  | nil => obtain ⟨b, hb, _⟩ := h; cases hb
  | cons a t ih =>
    rw [writeSweep_cons]
    by_cases hex : ∃ b ∈ t, i ∈ f b
    · exact ih hex
    · obtain ⟨b, hb, hbi⟩ := h
      have hba : b = a := by
        rcases List.mem_cons.mp hb with h1 | h1
        · exact h1
        · exact absurd ⟨b, h1, hbi⟩ hex
      have hnone : ∀ b' ∈ t, i ∉ f b' := by
        intro b' hb' hib'
        exact hex ⟨b', hb', hib'⟩
      rw [writeSweep_of_none hnone]
      exact writeConst_of_mem (hba ▸ hbi)

theorem writeSweep_cases {α β : Type} (v : α) (m : ℕ → α) (items : List β)
    (f : β → List ℕ) (i : ℕ) : writeSweep v m items f i = v ∨ writeSweep v m items f i = m i := by
  by_cases hex : ∃ b ∈ items, i ∈ f b
  · exact Or.inl (writeSweep_of_ex hex)
  · refine Or.inr (writeSweep_of_none ?_)
    intro b hb hbi
    exact hex ⟨b, hb, hbi⟩

theorem mem_pixelSweep {w h x y : ℕ} : (x, y) ∈ pixelSweep w h ↔ x < w ∧ y < h := by
  simp only [pixelSweep, List.mem_flatMap, List.mem_map, List.mem_range]
  constructor
  · rintro ⟨a, ha, b, hb, he⟩
    cases he
    exact ⟨hb, ha⟩
  · rintro ⟨hx, hy⟩
    exact ⟨y, hy, x, hx, rfl⟩

theorem mem_interiorSweep {w h x y : ℕ} :
    (x, y) ∈ interiorSweep w h ↔ (1 ≤ x ∧ x + 1 < w) ∧ (1 ≤ y ∧ y + 1 < h) := by
  simp only [interiorSweep, List.mem_flatMap, List.mem_map, List.mem_filter, List.mem_range,
    decide_eq_true_eq]
  constructor
  · rintro ⟨a, ⟨_, hya⟩, b, ⟨_, hxb⟩, he⟩
    cases he
    exact ⟨hxb, hya⟩
  · rintro ⟨hx, hy⟩
    exact ⟨y, ⟨by omega, hy⟩, x, ⟨by omega, hx⟩, rfl⟩

theorem idxN_lt {w h x y : ℕ} (hx : x < w) (hy : y < h) : y * w + x < w * h := by
  calc y * w + x < y * w + w := by omega
    _ = (y + 1) * w := by ring
    _ ≤ h * w := Nat.mul_le_mul_right w hy
    _ = w * h := Nat.mul_comm h w

theorem idxN_inj {w x x' y y' : ℕ} (hx : x < w) (hx' : x' < w)
    (he : y * w + x = y' * w + x') : x = x' ∧ y = y' := by
  have hw : 0 < w := lt_of_le_of_lt (Nat.zero_le x) hx
  have e1 : (y * w + x) % w = x := by
    rw [Nat.mul_comm y w, Nat.mul_add_mod]
    exact Nat.mod_eq_of_lt hx
  have e2 : (y' * w + x') % w = x' := by
    rw [Nat.mul_comm y' w, Nat.mul_add_mod]
    exact Nat.mod_eq_of_lt hx'
  have hxx : x = x' := by rw [← e1, ← e2, he]
  have hmul : y * w = y' * w := by omega
  exact ⟨hxx, Nat.eq_of_mul_eq_mul_right hw hmul⟩

theorem pix_decomp {w h i : ℕ} (hi : i < w * h) : ∃ x y, x < w ∧ y < h ∧ i = y * w + x := by
  have hw : 0 < w := by
    rcases Nat.eq_zero_or_pos w with h0 | h0
    · subst h0; simp at hi
    · exact h0
  refine ⟨i % w, i / w, Nat.mod_lt _ hw, ?_, ?_⟩
  · rw [Nat.div_lt_iff_lt_mul hw]
    exact lt_of_lt_of_le hi (le_of_eq (Nat.mul_comm w h))
  · have := Nat.div_add_mod i w
    rw [Nat.mul_comm (i / w) w]
    omega

/- Claim C1: the 4-point DLT path. -/

/-- Claim C1 (code_bug evidence).  computeHomography on the general-position
correspondence `(0,0),(1,0),(0,1),(1,1) ↦ (0,0),(2,0),(0,2),(2,2)` returns the
identity fallback instead of the DLT solution: applying the returned matrix to
the source point `(1,0)` (multiply then perspective divide) yields `(1,0)`,
not the destination `(2,0)` required by the claim. -/
theorem computeHomography_returns_identity_stub :
    computeHomography [(0, 0), (1, 0), (0, 1), (1, 1)] [(0, 0), (2, 0), (0, 2), (2, 2)] =
      Except.ok computeFallbackHomography ∧
    perspApply computeFallbackHomography (1, 0) = (1, 0) ∧
    perspApply computeFallbackHomography (1, 0) ≠ (2, 0) := by
  refine ⟨rfl, by norm_num [perspApply, computeFallbackHomography], ?_⟩
  norm_num [perspApply, computeFallbackHomography]

/- Claim C4: illumination normalization. -/

theorem foldl_min_le_init (xs : List ℚ) (a : ℚ) : xs.foldl min a ≤ a := by
  induction xs generalizing a with
  | nil => exact le_refl a
  | cons x t ih => exact le_trans (ih (min a x)) (min_le_left a x)

theorem foldl_min_le_mem {xs : List ℚ} {v : ℚ} (a : ℚ) (h : v ∈ xs) : xs.foldl min a ≤ v := by
  induction xs generalizing a with
  | nil => cases h
  | cons x t ih =>
    rcases List.mem_cons.mp h with h1 | h1
    · subst h1
      exact le_trans (foldl_min_le_init t (min a v)) (min_le_right a v)
    · exact ih (min a x) h1

theorem init_le_foldl_max (xs : List ℚ) (a : ℚ) : a ≤ xs.foldl max a := by
  induction xs generalizing a with
  | nil => exact le_refl a
  | cons x t ih => exact le_trans (le_max_left a x) (ih (max a x))

theorem mem_le_foldl_max {xs : List ℚ} {v : ℚ} (a : ℚ) (h : v ∈ xs) : v ≤ xs.foldl max a := by
  induction xs generalizing a with
  | nil => cases h
  | cons x t ih =>
    rcases List.mem_cons.mp h with h1 | h1
    · subst h1
      exact le_trans (le_max_right a v) (init_le_foldl_max t (max a v))
    · exact ih (max a x) h1

theorem arrMin_le {l : List ℚ} {v : ℚ} (h : v ∈ l) : arrMin l ≤ v := by
  cases l with
  | nil => cases h
  | cons x xs =>
    rcases List.mem_cons.mp h with h1 | h1
    · subst h1; exact foldl_min_le_init xs v
    · exact foldl_min_le_mem x h1

theorem le_arrMax {l : List ℚ} {v : ℚ} (h : v ∈ l) : v ≤ arrMax l := by
  cases l with
  | nil => cases h
  | cons x xs =>
    rcases List.mem_cons.mp h with h1 | h1
    · subst h1; exact init_le_foldl_max xs v
    · exact mem_le_foldl_max x h1

theorem arrMin_le_arrMax {l : List ℚ} (h : l ≠ []) : arrMin l ≤ arrMax l := by
  cases l with
  | nil => exact absurd rfl h
  | cons x xs =>
    exact le_trans (arrMin_le (List.mem_cons_self x xs)) (le_arrMax (List.mem_cons_self x xs))

theorem getD_map_of_lt (f : ℚ → ℚ) (l : List ℚ) {i : ℕ} (hi : i < l.length) :
    (l.map f).getD i 0 = f (l.getD i 0) := by
  induction l generalizing i with
  | nil => simp at hi
  | cons a t ih =>
    cases i with
    | zero => simp
    | succ k =>
      simp only [List.map_cons, List.getD_cons_succ]
      exact ih (by simpa using hi)

theorem getD_mem_of_lt (l : List ℚ) {i : ℕ} (hi : i < l.length) : l.getD i 0 ∈ l := by
  induction l generalizing i with
  | nil => simp at hi
  | cons a t ih =>
    cases i with
    | zero => simp
    | succ k =>
      simp only [List.getD_cons_succ]
      exact List.mem_cons_of_mem _ (ih (by simpa using hi))

/-- Claim C4 (confirmed).  With a non-flat field, normalizeLuminance keeps all
outputs inside `[0.8, 1.2]`, sends every maximum pixel to exactly 1.2 and
every minimum pixel to exactly 0.8; a flat field yields the constant 1.0
field instead of dividing by zero. -/
theorem normalizeLuminance_spec (lum : List ℚ) (hne : lum ≠ []) : NormSpec lum := by
  constructor
  · intro hd
    have hle : arrMin lum ≤ arrMax lum := arrMin_le_arrMax hne
    have hpos : 0 < arrMax lum - arrMin lum := by
      rcases lt_or_eq_of_le hle with h1 | h1
      · linarith
      · exact absurd h1.symm hd
    have hifn : normalizeLuminance lum =
        lum.map (fun v => 0.8 + (v - arrMin lum) / (arrMax lum - arrMin lum) * 0.4) := by
      unfold normalizeLuminance
      rw [if_neg (by intro h0; exact hd (by linarith))]
    refine ⟨?_, ?_, ?_⟩
    · intro v hv
      rw [hifn] at hv
      obtain ⟨u, hu, he⟩ := List.mem_map.mp hv
      subst he
      have h1 : arrMin lum ≤ u := arrMin_le hu
      have h2 : u ≤ arrMax lum := le_arrMax hu
      have h3 : 0 ≤ (u - arrMin lum) / (arrMax lum - arrMin lum) :=
        div_nonneg (by linarith) (le_of_lt hpos)
      have h4 : (u - arrMin lum) / (arrMax lum - arrMin lum) ≤ 1 := by
        rw [div_le_one hpos]; linarith
      constructor <;> nlinarith
    · intro i hi he
      rw [hifn, getD_map_of_lt _ _ hi, he, div_self (ne_of_gt hpos)]
      norm_num
    · intro i hi he
      rw [hifn, getD_map_of_lt _ _ hi, he]
      rw [sub_self, zero_div]
      norm_num
  · intro he
    unfold normalizeLuminance
    rw [if_pos (by rw [he]; ring)]

/-- Witness for C4 at the concrete field `[0, 1, 2]`. -/
theorem normalizeLuminance_spec_witness :
    (([0, 1, 2] : List ℚ) ≠ []) ∧ NormSpec [0, 1, 2] :=
  ⟨by decide, normalizeLuminance_spec [0, 1, 2] (by decide)⟩

/- Claim C8: RANSAC default plane on fewer than 3 points. -/

/-- Claim C8 (confirmed).  With fewer than 3 candidate points the RANSAC plane
fitter immediately returns the default horizontal plane `(0,0,1,0)`, for every
random stream, sqrt oracle and iteration count; consequently the
floor-plane estimator does the same whenever the floor/depth restriction
leaves fewer than 3 samples. -/
theorem fitPlaneRANSAC_default (sqrtF : ℚ → ℚ) (rand : ℕ → ℚ)
    (points : List (ℚ × ℚ × ℚ)) (iterations : ℕ) (h : points.length < 3) :
    fitPlaneRANSAC sqrtF rand points iterations = (0, 0, 1, 0) ∧
    (∀ depthData floorMask w hh,
      collectFloorDepthPoints depthData floorMask w hh = points →
      estimateFloorPlaneFromDepth depthData floorMask w hh rand sqrtF = (0, 0, 1, 0)) := by
  constructor
  · unfold fitPlaneRANSAC
    rw [if_pos h]
  · intro depthData floorMask w hh he
    unfold estimateFloorPlaneFromDepth
    rw [he]
    unfold fitPlaneRANSAC
    rw [if_pos h]

/-- Witness for C8 on the empty point set. -/
theorem fitPlaneRANSAC_default_witness :
    (([] : List (ℚ × ℚ × ℚ)).length < 3) ∧
    fitPlaneRANSAC (fun _ => 0) (fun _ => 0) [] 1000 = (0, 0, 1, 0) :=
  ⟨by decide, (fitPlaneRANSAC_default (fun _ => 0) (fun _ => 0) [] 1000 (by decide)).1⟩


/- Claim C7: brick-row parity. -/

theorem glslMod_intCast_two (k : ℤ) : glslMod (k : ℚ) 2 = ((k % 2 : ℤ) : ℚ) := by
  unfold glslMod qfloor
  have he : ((2 * (k / 2) + k % 2 : ℤ) : ℚ) = (k : ℚ) := by
    norm_cast
    exact Int.ediv_add_emod k 2
  have hm0 : (0 : ℤ) ≤ k % 2 := Int.emod_nonneg k (by norm_num)
  have hm2 : k % 2 < 2 := Int.emod_lt_of_pos k (by norm_num)
  have hsplit : (k : ℚ) / 2 = ((k / 2 : ℤ) : ℚ) + ((k % 2 : ℤ) : ℚ) / 2 := by
    push_cast at he ⊢
    linarith
  have hfl : ⌊(k : ℚ) / 2⌋ = k / 2 := by
    rw [hsplit, add_comm, Int.floor_add_int]
    have hz : ⌊((k % 2 : ℤ) : ℚ) / 2⌋ = 0 := by
      apply Int.floor_eq_zero_iff.mpr
      constructor
      · positivity
      · have h2 : ((k % 2 : ℤ) : ℚ) < 2 := by exact_mod_cast hm2
        rw [div_lt_one (by norm_num : (0:ℚ) < 2)] at *
        · exact h2
    rw [hz]
    ring
  rw [hfl]
  push_cast at he ⊢
  linarith

/-- Claim C7 (amended).  For every plank size with positive components and
every floor UV: in part_003's brick branch the 0.5 offset is applied to
`local.x` exactly when the cell row `floor(uv.y / plankSize.y)` is EVEN, while
in part_005's getPlankUV brick branch it is applied exactly when that row is
ODD; the y component is unchanged in both. -/
theorem brickOffset_parity (plank uv : ℚ × ℚ) (hashF : ℚ × ℚ → ℚ) (seed c45 s45 : ℚ)
    (hL : 0 < plank.1) (hW : 0 < plank.2) :
    ((brickLocal plank uv).1 = (localOf plank uv).1 + 0.5 ↔ ⌊uv.2 / plank.2⌋ % 2 = 0) ∧
    (brickLocal plank uv).2 = (localOf plank uv).2 ∧
    ((getPlankUV hashF seed c45 s45 plank uv 1).1 = (localOf plank uv).1 + 0.5 ↔
      ¬ ⌊uv.2 / plank.2⌋ % 2 = 0) ∧
    (getPlankUV hashF seed c45 s45 plank uv 1).2 = (localOf plank uv).2 := by
  have hne : ∀ a : ℚ, ¬ (a = a + 0.5) := by
    intro a he
    linarith
  have hmod : glslMod (cellOf plank uv).2 2 = ((⌊uv.2 / plank.2⌋ % 2 : ℤ) : ℚ) :=
    glslMod_intCast_two ⌊uv.2 / plank.2⌋
  have hPlankUV : getPlankUV hashF seed c45 s45 plank uv 1 =
      (if glslMod (cellOf plank uv).2 2 > 0.5 then
        ((localOf plank uv).1 + 0.5, (localOf plank uv).2)
      else localOf plank uv) := by
    unfold getPlankUV
    norm_num
  rcases Int.emod_two_eq ⌊uv.2 / plank.2⌋ with h0 | h0
  · have hb : brickLocal plank uv = ((localOf plank uv).1 + 0.5, (localOf plank uv).2) := by
      unfold brickLocal
      rw [if_pos]
      rw [hmod, h0]
      norm_num
    have hp : getPlankUV hashF seed c45 s45 plank uv 1 = localOf plank uv := by
      rw [hPlankUV, if_neg]
      rw [hmod, h0]
      norm_num
    rw [hb, hp]
    exact ⟨iff_of_true rfl h0, rfl, iff_of_false (hne _) (by simp [h0]), rfl⟩
  · have hb : brickLocal plank uv = localOf plank uv := by
      unfold brickLocal
      rw [if_neg]
      rw [hmod, h0]
      norm_num
    have hp : getPlankUV hashF seed c45 s45 plank uv 1 =
        ((localOf plank uv).1 + 0.5, (localOf plank uv).2) := by
      rw [hPlankUV, if_pos]
      rw [hmod, h0]
      norm_num
    rw [hb, hp]
    exact ⟨iff_of_false (hne _) (by omega), rfl, iff_of_true rfl (by omega), rfl⟩

/-- Witness for the amended C7 at plank size (1,1) and UVs in rows 0 and 1. -/
theorem brickOffset_parity_witness :
    ((0 : ℚ) < 1) ∧
    ((brickLocal (1, 1) (1/4, 1/4)).1 = (localOf (1, 1) (1/4, 1/4)).1 + 0.5 ↔
      ⌊(1/4 : ℚ) / 1⌋ % 2 = 0) ∧
    ((getPlankUV (fun _ => 0) 0 (7/10) (7/10) (1, 1) (1/4, 5/4) 1).1 =
        (localOf (1, 1) (1/4, 5/4)).1 + 0.5 ↔ ¬ ⌊(5/4 : ℚ) / 1⌋ % 2 = 0) :=
  ⟨by norm_num,
   (brickOffset_parity (1, 1) (1/4, 1/4) (fun _ => 0) 0 (7/10) (7/10)
      (by norm_num) (by norm_num)).1,
   (brickOffset_parity (1, 1) (1/4, 5/4) (fun _ => 0) 0 (7/10) (7/10)
      (by norm_num) (by norm_num)).2.2.1⟩

unseal Rat.ofScientific Rat.sub Rat.add Rat.inv Rat.mul in
/-- Claim C7 (counterexample).  At plank size (1,1): for `uv = (1/4, 1/4)` the
cell row is 0 (even) yet part_003's brick branch DOES apply the 0.5 offset,
and for `uv = (1/4, 5/4)` the cell row is 1 (odd) yet it does NOT; this
refutes "offset applied exactly when cell.y is odd" for the compositor
shader. -/
theorem brickLocal_even_row_offset :
    brickLocal (1, 1) (1/4, 1/4) = (3/4, 1/4) ∧
    brickLocal (1, 1) (1/4, 5/4) = (1/4, 1/4) ∧
    (⌊(1/4 : ℚ) / 1⌋ % 2 = 0 ∧ ⌊(5/4 : ℚ) / 1⌋ % 2 = 1) := by
  refine ⟨by decide, by decide, by decide, by decide⟩

/- Claim C5: solid-color compositing. -/

theorem smoothstepQ_sat {x : ℚ} (hx : (0.015 : ℚ) ≤ x) : smoothstepQ 0 0.015 x = 1 := by
  unfold smoothstepQ clampQ
  have h1 : (1 : ℚ) ≤ (x - 0) / (0.015 - 0) := by
    rw [le_div_iff₀ (by norm_num)]
    linarith
  rw [max_eq_left (by linarith), min_eq_right h1]
  norm_num

theorem patternWood_const (e : ShaderEnv) (uv : ℚ × ℚ) (g : ℚ)
    (hwood : e.texWood = fun _ => (g, g, g))
    (hedge : (0.015 : ℚ) ≤ edgeOf (patternLocal e.pattern e.plankSize uv)) :
    patternWood e uv = (g, g, g) := by
  by_cases h2 : e.pattern = 2
  · simp only [patternLocal, if_pos h2] at hedge
    simp only [patternWood, sampleHerringbone, if_pos h2, hwood, smoothstepQ_sat hedge]
    unfold mixQ
    norm_num
  · by_cases h1 : e.pattern = 1
    · simp only [patternLocal, if_neg h2, if_pos h1] at hedge
      simp only [patternWood, if_neg h2, if_pos h1, hwood, smoothstepQ_sat hedge]
      unfold mixQ
      norm_num
    · simp only [patternLocal, if_neg h2, if_neg h1] at hedge
      simp only [patternWood, if_neg h2, if_neg h1, hwood, smoothstepQ_sat hedge]
      unfold mixQ
      norm_num

/-- Claim C5 (amended).  With a solid color `(g, g, g)` wood texture, full
floor mask, empty occluder mask and neutral illumination at the screen
position, the compositor outputs exactly `(g, g, g)` at every pixel whose
pattern-local coordinate is at least the 0.015 seam band away from the
plank-cell boundary, for every pattern kind, homography, plank size, scale,
rotation, hash and seed; inside the seam band the output is seam-darkened
instead (see the counterexample). -/
theorem shader_solid_gray (e : ShaderEnv) (vPos : ℚ × ℚ) (g : ℚ)
    (hwood : e.texWood = fun _ => (g, g, g))
    (hfloor : e.texFloorMask vPos = 1)
    (hocc : e.texOccluderMask vPos = 0)
    (hillum : e.texIllum vPos = 1)
    (hedge : (0.015 : ℚ) ≤ edgeOf (patternLocal e.pattern e.plankSize (shaderUV e vPos))) :
    shaderMain e vPos = (g, g, g) := by
  simp only [shaderMain, patternWood_const e (shaderUV e vPos) g hwood hedge,
    hfloor, hocc, hillum]
  unfold mixQ
  norm_num

unseal Rat.ofScientific Rat.sub Rat.add Rat.inv Rat.mul in
/-- Witness for the amended C5: the random-pattern scenario environment at the
first pixel center of the 4×4 image satisfies the seam-clearance hypothesis
and composites to the solid gray 128. -/
theorem shader_solid_gray_witness :
    ((0.015 : ℚ) ≤ edgeOf (patternLocal envC5w.pattern envC5w.plankSize
      (shaderUV envC5w (1/8, 1/8)))) ∧
    shaderMain envC5w (1/8, 1/8) = (128/255, 128/255, 128/255) :=
  ⟨by decide, shader_solid_gray envC5w (1/8, 1/8) (128/255) rfl rfl rfl rfl (by decide)⟩

set_option maxRecDepth 40000 in
unseal Rat.ofScientific Rat.sub Rat.add Rat.inv Rat.mul in
/-- Claim C5 (counterexample).  In the same 4×4 scenario (all-on floor mask,
all-off occluder mask, identity homography, unit illumination, solid
(128,128,128) material) with the brick pattern, the pixel centered at
`vPos = (1/8, 1/8)` lands on a brick seam (the offset local coordinate is 1.0)
and is darkened by the 0.9 seam factor: the output is 0.9·128/255, not the
claimed 128/255. -/
theorem shaderMain_brick_seam_darkens :
    shaderMain envC5cex (1/8, 1/8) ≠ (128/255, 128/255, 128/255) ∧
    shaderMain envC5cex (1/8, 1/8) = (192/425, 192/425, 192/425) := by
  constructor
  · decide
  · decide

/- Claim C10: the dilate-then-erode closing is the identity on binary masks. -/

/-- Claim C10 (confirmed).  Because the erosion pass writes into a copy of the
ORIGINAL mask (not of the dilated one), dilateErode returns its input
unchanged at every pixel, for every binary mask and every radius: it adds no
pixels and removes none. -/
theorem dilateErode_id (m : ℕ → ℚ) (w h r : ℕ) (hr : 1 ≤ r)
    (hbin : ∀ i < w * h, m i = 0 ∨ m i = 1) (i : ℕ) :
    dilateErode m w h r i = m i := by
  simp only [dilateErode]
  set D := writeSweep (1 : ℚ) m (pixelSweep w h)
    (fun pxy => if (1 : ℚ)/2 < m (pxy.2 * w + pxy.1) then nbhdR w h r pxy.1 pxy.2 else [])
    with hDdef
  have hD : ∀ x y : ℕ, x < w → y < h → m (y * w + x) = 1 →
      ∀ j ∈ nbhdR w h r x y, (1 : ℚ)/2 < D j := by
    intro x y hx hy hm j hj
    have : D j = 1 := by
      apply writeSweep_of_ex
      refine ⟨(x, y), mem_pixelSweep.mpr ⟨hx, hy⟩, ?_⟩
      rw [if_pos (by rw [hm]; norm_num)]
      exact hj
    rw [this]
    norm_num
  by_cases hex : ∃ b ∈ pixelSweep w h, i ∈
      (fun pxy : ℕ × ℕ => if (1 : ℚ)/2 < D (pxy.2 * w + pxy.1) ∧
        ¬ (∀ j ∈ nbhdR w h r pxy.1 pxy.2, (1 : ℚ)/2 < D j) then [pxy.2 * w + pxy.1] else []) b
  · obtain ⟨⟨x, y⟩, hbmem, hif⟩ := hex
    obtain ⟨hx, hy⟩ := mem_pixelSweep.mp hbmem
    have hif2 : i ∈ (if (1 : ℚ)/2 < D (y * w + x) ∧
        ¬ (∀ j ∈ nbhdR w h r x y, (1 : ℚ)/2 < D j) then [y * w + x] else []) := hif
    by_cases hc : (1 : ℚ)/2 < D (y * w + x) ∧
        ¬ (∀ j ∈ nbhdR w h r x y, (1 : ℚ)/2 < D j)
    · rw [if_pos hc] at hif2
      have hij : i = y * w + x := List.mem_singleton.mp hif2
      have hmz : m i = 0 := by
        rcases hbin i (hij ▸ idxN_lt hx hy) with h0 | h1
        · exact h0
        · exact absurd (hD x y hx hy (hij ▸ h1)) hc.2
      rw [writeSweep_of_ex ⟨(x, y), hbmem, hif⟩, hmz]
    · rw [if_neg hc] at hif2
      cases hif2
  · exact writeSweep_of_none (by
      intro b hb hbi
      exact hex ⟨b, hb, hbi⟩)

/-- Witness for C10 on a single-pixel 3×3 binary mask with radius 1. -/
theorem dilateErode_id_witness :
    (1 ≤ 1) ∧
    dilateErode (fun i => if i = 4 then (1 : ℚ) else 0) 3 3 1 4 = 1 ∧
    dilateErode (fun i => if i = 4 then (1 : ℚ) else 0) 3 3 1 0 = 0 :=
  ⟨le_refl 1,
   (dilateErode_id _ 3 3 1 (le_refl 1) (by decide) 4).trans (by norm_num),
   (dilateErode_id _ 3 3 1 (le_refl 1) (by decide) 0).trans (by norm_num)⟩

/- Claim C3: occlusion refiner characterization. -/

/-- Claim C3 (amended).  For planes with nonzero `c` (the faithful domain of
the depth query): the refined occluder mask is set exactly at (a) every pixel
of the base occluder mask, i.e. floor pixels whose depth is nearer than the
plane's predicted depth by more than 0.1 or furniture pixels, and (b) every
pixel in the 3×3 neighborhood of an INTERIOR base pixel; base pixels on the
image border keep their value but are not dilated. -/
theorem occluder_refiner_char (floorM furnM : ℕ → ℕ) (depthData : ℕ → ℚ)
    (plane : ℚ × ℚ × ℚ × ℚ) (w h : ℕ) (hc : plane.2.2.1 ≠ 0) (i : ℕ) (hi : i < w * h) :
    (refineOccluderMask (occluderBase floorM furnM depthData plane w h) w h i = 255 ↔
      (occluderBase floorM furnM depthData plane w h i = 255 ∨
        ∃ x y, 1 ≤ x ∧ x + 1 < w ∧ 1 ≤ y ∧ y + 1 < h ∧
          occluderBase floorM furnM depthData plane w h (y * w + x) = 255 ∧
          i ∈ nbhd9 w h x y)) ∧
    (∀ x y, x < w → y < h →
      (occluderBase floorM furnM depthData plane w h (y * w + x) = 255 ↔
        ((floorM (y * w + x) = 255 ∧
          depthData (y * w + x) < getPlaneDepth plane (x : ℚ) (y : ℚ) - 1/10) ∨
          furnM (y * w + x) = 255))) := by
  have hbase : ∀ x y, x < w → y < h →
      (occluderBase floorM furnM depthData plane w h (y * w + x) = 255 ↔
        ((floorM (y * w + x) = 255 ∧
          depthData (y * w + x) < getPlaneDepth plane (x : ℚ) (y : ℚ) - 1/10) ∨
          furnM (y * w + x) = 255)) := by
    intro x y hx hy
    unfold occluderBase
    constructor
    · intro h255
      by_cases hex : ∃ b ∈ pixelSweep w h, (y * w + x) ∈
          (fun pxy : ℕ × ℕ =>
            (if floorM (pxy.2 * w + pxy.1) = 255 ∧ depthData (pxy.2 * w + pxy.1) <
                getPlaneDepth plane (pxy.1 : ℚ) (pxy.2 : ℚ) - 1/10 then [pxy.2 * w + pxy.1] else []) ++
            (if furnM (pxy.2 * w + pxy.1) = 255 then [pxy.2 * w + pxy.1] else [])) b
      · obtain ⟨⟨x', y'⟩, hmem, hj⟩ := hex
        obtain ⟨hx', hy'⟩ := mem_pixelSweep.mp hmem
        have hj2 : (y * w + x) ∈
            ((if floorM (y' * w + x') = 255 ∧ depthData (y' * w + x') <
                getPlaneDepth plane (x' : ℚ) (y' : ℚ) - 1/10 then [y' * w + x'] else []) ++
             (if furnM (y' * w + x') = 255 then [y' * w + x'] else [])) := hj
        rcases List.mem_append.mp hj2 with hj3 | hj3
        · by_cases hcond : floorM (y' * w + x') = 255 ∧ depthData (y' * w + x') <
              getPlaneDepth plane (x' : ℚ) (y' : ℚ) - 1/10
          · rw [if_pos hcond] at hj3
            have he := List.mem_singleton.mp hj3
            obtain ⟨hxx, hyy⟩ := idxN_inj hx' hx he.symm
            subst hxx; subst hyy
            exact Or.inl hcond
          · rw [if_neg hcond] at hj3
            cases hj3
        · by_cases hcond : furnM (y' * w + x') = 255
          · rw [if_pos hcond] at hj3
            have he := List.mem_singleton.mp hj3
            obtain ⟨hxx, hyy⟩ := idxN_inj hx' hx he.symm
            subst hxx; subst hyy
            exact Or.inr hcond
          · rw [if_neg hcond] at hj3
            cases hj3
      · rw [writeSweep_of_none (by intro b hb hbi; exact hex ⟨b, hb, hbi⟩)] at h255
        cases h255
    · intro hdisj
      apply writeSweep_of_ex
      refine ⟨(x, y), mem_pixelSweep.mpr ⟨hx, hy⟩, ?_⟩
      show (y * w + x) ∈
        ((if floorM (y * w + x) = 255 ∧ depthData (y * w + x) <
            getPlaneDepth plane (x : ℚ) (y : ℚ) - 1/10 then [y * w + x] else []) ++
         (if furnM (y * w + x) = 255 then [y * w + x] else []))
      rcases hdisj with hfl | hfu
      · exact List.mem_append_left _ (by rw [if_pos hfl]; exact List.mem_singleton_self _)
      · exact List.mem_append_right _ (by rw [if_pos hfu]; exact List.mem_singleton_self _)
  refine ⟨?_, hbase⟩
  unfold refineOccluderMask
  constructor
  · intro h255
    by_cases hex : ∃ b ∈ interiorSweep w h, i ∈
        (fun pxy : ℕ × ℕ =>
          if occluderBase floorM furnM depthData plane w h (pxy.2 * w + pxy.1) = 255 then
            nbhd9 w h pxy.1 pxy.2 else []) b
    · obtain ⟨⟨x, y⟩, hmem, hj⟩ := hex
      obtain ⟨⟨hx1, hx2⟩, ⟨hy1, hy2⟩⟩ := mem_interiorSweep.mp hmem
      have hj2 : i ∈ (if occluderBase floorM furnM depthData plane w h (y * w + x) = 255 then
          nbhd9 w h x y else []) := hj
      by_cases hcond : occluderBase floorM furnM depthData plane w h (y * w + x) = 255
      · rw [if_pos hcond] at hj2
        exact Or.inr ⟨x, y, hx1, hx2, hy1, hy2, hcond, hj2⟩
      · rw [if_neg hcond] at hj2
        cases hj2
    · rw [writeSweep_of_none (by intro b hb hbi; exact hex ⟨b, hb, hbi⟩)] at h255
      exact Or.inl h255
  · intro hdisj
    rcases hdisj with hb | ⟨x, y, hx1, hx2, hy1, hy2, hcond, hnb⟩
    · rcases writeSweep_cases 255 (occluderBase floorM furnM depthData plane w h)
          (interiorSweep w h)
          (fun pxy : ℕ × ℕ =>
            if occluderBase floorM furnM depthData plane w h (pxy.2 * w + pxy.1) = 255 then
              nbhd9 w h pxy.1 pxy.2 else []) i with hcase | hcase
      · exact hcase
      · rw [hcase]
        exact hb
    · apply writeSweep_of_ex
      refine ⟨(x, y), mem_interiorSweep.mpr ⟨⟨hx1, hx2⟩, ⟨hy1, hy2⟩⟩, ?_⟩
      show i ∈ (if occluderBase floorM furnM depthData plane w h (y * w + x) = 255 then
          nbhd9 w h x y else [])
      rw [if_pos hcond]
      exact hnb

unseal Rat.ofScientific Rat.sub Rat.add Rat.inv Rat.mul in
/-- Witness for the amended C3: a 3×3 grid with the whole floor on-mask, a
depth hole at the center pixel and plane z = 1; the center becomes a base
occluder and the refiner dilates it to the corner pixel 0. -/
theorem occluder_refiner_char_witness :
    refineOccluderMask (occluderBase (fun _ => 255) (fun _ => 0)
      (fun i => if i = 4 then 0 else 1) (0, 0, 1, -1) 3 3) 3 3 0 = 255 :=
  ((occluder_refiner_char (fun _ => 255) (fun _ => 0) (fun i => if i = 4 then 0 else 1)
      (0, 0, 1, -1) 3 3 (by norm_num) 0 (by norm_num)).1).mpr
    (Or.inr ⟨1, 1, by norm_num, by norm_num, by norm_num, by norm_num, by decide, by decide⟩)

unseal Rat.ofScientific Rat.sub Rat.add Rat.inv Rat.mul in
/-- Claim C3 (counterexample).  A furniture pixel at the image corner (0,0) of
a 3×3 grid is a base occluder, and pixel 1 = (1,0) lies inside its 3×3
neighborhood, so the claim's dilation clause (c) demands 255 there; but the
dilation loops skip border source pixels, so the refined mask is 0 at
pixel 1. -/
theorem refineOccluder_skips_border :
    occluderBase (fun _ => 0) (fun i => if i = 0 then 255 else 0)
      (fun _ => 0) (0, 0, 1, 0) 3 3 0 = 255 ∧
    1 ∈ nbhd9 3 3 0 0 ∧
    refineOccluderMask (occluderBase (fun _ => 0) (fun i => if i = 0 then 255 else 0)
      (fun _ => 0) (0, 0, 1, 0) 3 3) 3 3 1 = 0 := by
  refine ⟨by decide, by decide, by decide⟩

/- Claim C6: furniture always occludes; floor and furniture masks may overlap. -/

/-- Claim C6 (amended).  The masks returned by createOcclusionMask satisfy the
occlusion-precedence guarantee through the OCCLUDER mask: every pixel set in
the returned furnitureMask is also set in the returned occluderMask (the
downstream blend weight `floor * (1 - occluder)` therefore never paints over
furniture).  The returned floorMask and furnitureMask themselves are NOT
disjoint in general (see the counterexample). -/
theorem createOcclusionMask_furniture_occludes (segs : List SegModel) (depthData : ℕ → ℚ)
    (w h : ℕ) (rand : ℕ → ℚ) (sqrtF : ℚ → ℚ) (i : ℕ) (hi : i < w * h)
    (hf : (createOcclusionMask segs depthData w h rand sqrtF).furnitureMask i = 255) :
    (createOcclusionMask segs depthData w h rand sqrtF).occluderMask i = 255 := by
  simp only [createOcclusionMask] at hf ⊢
  obtain ⟨x, y, hx, hy, hij⟩ := pix_decomp hi
  subst hij
  have hbase : occluderBase (postProcessMask (segUnionMasks segs w h).1 w h)
      (segUnionMasks segs w h).2 depthData
      (estimateFloorPlaneFromDepth depthData
        (postProcessMask (segUnionMasks segs w h).1 w h) w h rand sqrtF)
      w h (y * w + x) = 255 := by
    apply writeSweep_of_ex
    refine ⟨(x, y), mem_pixelSweep.mpr ⟨hx, hy⟩, ?_⟩
    refine List.mem_append_right _ ?_
    rw [if_pos hf]
    exact List.mem_singleton_self _
  unfold refineOccluderMask
  rcases writeSweep_cases 255 (occluderBase (postProcessMask (segUnionMasks segs w h).1 w h)
      (segUnionMasks segs w h).2 depthData
      (estimateFloorPlaneFromDepth depthData
        (postProcessMask (segUnionMasks segs w h).1 w h) w h rand sqrtF) w h)
      (interiorSweep w h)
      (fun pxy : ℕ × ℕ =>
        if occluderBase (postProcessMask (segUnionMasks segs w h).1 w h)
            (segUnionMasks segs w h).2 depthData
            (estimateFloorPlaneFromDepth depthData
              (postProcessMask (segUnionMasks segs w h).1 w h) w h rand sqrtF) w h
            (pxy.2 * w + pxy.1) = 255 then
          nbhd9 w h pxy.1 pxy.2 else []) (y * w + x) with hcase | hcase
  · exact hcase
  · rw [hcase]
    exact hbase

/-- Witness for the amended C6: a single "table" segment on a 2×2 image; pixel
0 is furniture and is set in the returned occluder mask. -/
theorem createOcclusionMask_furniture_occludes_witness :
    ((0 : ℕ) < 2 * 2) ∧
    (createOcclusionMask [⟨"table", fun _ => 255⟩] (fun _ => 1) 2 2
      (fun _ => 0) (fun _ => 0)).furnitureMask 0 = 255 ∧
    (createOcclusionMask [⟨"table", fun _ => 255⟩] (fun _ => 1) 2 2
      (fun _ => 0) (fun _ => 0)).occluderMask 0 = 255 :=
  ⟨by norm_num, by decide,
   createOcclusionMask_furniture_occludes [⟨"table", fun _ => 255⟩] (fun _ => 1) 2 2
     (fun _ => 0) (fun _ => 0) 0 (by norm_num) (by decide)⟩

/-- Claim C6 (counterexample).  With one all-on "floor" segment and one all-on
"table" segment on a 2×2 image, the returned floorMask and furnitureMask are
BOTH 255 at pixel 0: createOcclusionMask never clears floor pixels under
furniture, so the claimed disjointness invariant does not hold for the two
returned masks. -/
theorem createOcclusionMask_masks_overlap :
    (createOcclusionMask [⟨"floor", fun _ => 255⟩, ⟨"table", fun _ => 255⟩]
      (fun _ => 1) 2 2 (fun _ => 0) (fun _ => 0)).floorMask 0 = 255 ∧
    (createOcclusionMask [⟨"floor", fun _ => 255⟩, ⟨"table", fun _ => 255⟩]
      (fun _ => 1) 2 2 (fun _ => 0) (fun _ => 0)).furnitureMask 0 = 255 := by
  refine ⟨by decide, by decide⟩

/- Claim C2: behavior when no segment label matches the floor vocabulary. -/

theorem lcFold_noop (w h : ℕ) (m : ℕ → ℚ) :
    ∀ (l : List (ℕ × ℕ)) (acc : List ℕ × List (List ℕ)),
    (∀ p ∈ l, (1 : ℚ)/2 < m (p.2 * w + p.1) → (p.2 * w + p.1) ∈ acc.1) →
    l.foldl (lcStep w h m) acc = acc := by
  intro l
  induction l with
  | nil => intro acc _; rfl
  | cons p t ih =>
    intro acc hall
    have hstep : lcStep w h m acc p = acc := by
      unfold lcStep
      rw [if_neg]
      rintro ⟨hon, hnot⟩
      exact hnot (hall p (List.mem_cons_self p t) hon)
    rw [List.foldl_cons, hstep]
    exact ih acc (fun q hq => hall q (List.mem_cons_of_mem _ hq))

theorem largestComponent_all_off {m : ℕ → ℚ} (w h : ℕ)
    (hm : ∀ j, ¬ ((1 : ℚ)/2 < m j)) : largestComponent m w h = fun _ => 0 := by
  funext i
  unfold largestComponent lcScan
  rw [lcFold_noop w h m _ _ (fun p _ hon => absurd hon (hm _))]
  simp [chooseLargest]

theorem buildMasksPair_fst_zero (w h : ℕ) :
    ∀ (segs : List SegClean) (acc : (ℕ → ℚ) × (ℕ → ℚ)),
    (∀ seg ∈ segs, floorLabelsClean.any (fun l => strIncludes (strLower seg.label) l) = false) →
    (segs.foldl (buildMasksStep w h) acc).1 = acc.1 := by
  intro segs
  induction segs with
  | nil => intro acc _; rfl
  | cons seg t ih =>
    intro acc hall
    have hfl : floorLabelsClean.any (fun l => strIncludes (strLower seg.label) l) = false :=
      hall seg (List.mem_cons_self seg t)
    have hstep : (buildMasksStep w h acc seg).1 = acc.1 := by
      unfold buildMasksStep
      rw [hfl]
      by_cases hfu : furnitureLabelsClean.any (fun l => strIncludes (strLower seg.label) l)
      · rw [hfu]
        simp
      · rw [Bool.eq_false_iff.mpr hfu]
        simp
    rw [List.foldl_cons]
    have ht := ih (buildMasksStep w h acc seg) (fun s hs => hall s (List.mem_cons_of_mem _ hs))
    rw [ht, hstep]

/-- Claim C2 (amended).  When no segment label matches the floor vocabulary:
toFloorMask (models.ts) falls back to the deterministic mask that is 255
exactly on the rows `y ≥ Math.floor(0.4 * height)` (the bottom ≈60% of the
image), while buildMasksFromSegmentation (masks.ts) has NO such fallback and
returns the all-zero floor mask. -/
theorem noFloorLabel_fallback (segsM : List SegModel) (segsC : List SegClean) (w h : ℕ)
    (hM : ∀ seg ∈ segsM, floorHitModels (strLower seg.label) = false)
    (hC : ∀ seg ∈ segsC,
      floorLabelsClean.any (fun l => strIncludes (strLower seg.label) l) = false) :
    (∀ x y, x < w → y < h →
      toFloorMask segsM w h (y * w + x) =
        if (⌊(h : ℚ) * (2/5)⌋).toNat ≤ y then 255 else 0) ∧
    (∀ i, (buildMasksFromSegmentation segsC w h).floorMask i = 0) := by
  constructor
  · intro x y hx hy
    have hnone : segsM.find? (fun seg => floorHitModels (strLower seg.label)) = none := by
      rw [List.find?_eq_none]
      intro seg hseg hcontra
      rw [hM seg hseg] at hcontra
      cases hcontra
    unfold toFloorMask
    rw [hnone]
    by_cases hfy : (⌊(h : ℚ) * (2/5)⌋).toNat ≤ y
    · rw [if_pos hfy]
      apply writeConst_of_mem
      unfold fallbackFloorList
      simp only [List.mem_flatMap, List.mem_map, List.mem_filter, List.mem_range,
        decide_eq_true_eq]
      exact ⟨y, ⟨hy, hfy⟩, x, hx, rfl⟩
    · rw [if_neg hfy]
      show writeConst 255 (fun _ => 0) (fallbackFloorList w h) (y * w + x) = 0
      rw [writeConst_of_not_mem]
      intro hmem
      unfold fallbackFloorList at hmem
      simp only [List.mem_flatMap, List.mem_map, List.mem_filter, List.mem_range,
        decide_eq_true_eq] at hmem
      obtain ⟨y', ⟨hy', hfy'⟩, x', hx', he⟩ := hmem
      obtain ⟨hxx, hyy⟩ := idxN_inj hx' hx he
      subst hyy
      exact hfy hfy'
  · intro i
    have hz : (buildMasksPair segsC w h).1 = (fun _ => (0 : ℚ)) := by
      unfold buildMasksPair
      exact buildMasksPair_fst_zero w h segsC _ hC
    show largestComponent (buildMasksPair segsC w h).1 w h i = 0
    rw [hz, largestComponent_all_off w h (by intro j; norm_num)]

/-- Witness for the amended C2: one "wall" segment, 2×5 image.  Row 2 (the
boundary row of the bottom 60%) is set in toFloorMask's fallback, row 1 is
not, and buildMasksFromSegmentation returns a zero floor mask. -/
theorem noFloorLabel_fallback_witness :
    (∀ seg ∈ ([⟨"wall", fun _ => 255⟩] : List SegModel),
      floorHitModels (strLower seg.label) = false) ∧
    toFloorMask [⟨"wall", fun _ => 255⟩] 2 5 (2 * 2 + 0) =
      (if (⌊(5 : ℚ) * (2/5)⌋).toNat ≤ 2 then 255 else 0) ∧
    toFloorMask [⟨"wall", fun _ => 255⟩] 2 5 (1 * 2 + 0) =
      (if (⌊(5 : ℚ) * (2/5)⌋).toNat ≤ 1 then 255 else 0) ∧
    (buildMasksFromSegmentation [⟨"wall", fun _ => 1⟩] 2 5).floorMask 0 = 0 :=
  ⟨by decide,
   (noFloorLabel_fallback [⟨"wall", fun _ => 255⟩] [⟨"wall", fun _ => 1⟩] 2 5
      (by decide) (by decide)).1 0 2 (by norm_num) (by norm_num),
   (noFloorLabel_fallback [⟨"wall", fun _ => 255⟩] [⟨"wall", fun _ => 1⟩] 2 5
      (by decide) (by decide)).1 0 1 (by norm_num) (by norm_num),
   (noFloorLabel_fallback [⟨"wall", fun _ => 255⟩] [⟨"wall", fun _ => 1⟩] 2 5
      (by decide) (by decide)).2 0⟩

unseal Rat.ofScientific Rat.sub Rat.add Rat.inv Rat.mul in
/-- Claim C2 (counterexample).  buildMasksFromSegmentation with NO floor-
matching segment (here: the empty segmentation) returns the all-zero floor
mask on a 2×2 image: pixel 2 = (0,1) has normalized y = 1/2 > 0.4, where the
claim demands a set pixel, and the whole returned floor mask is empty, which
the claim says cannot happen. -/
theorem buildMasks_no_fallback :
    ((1 : ℚ)/2 > 2/5) ∧
    (buildMasksFromSegmentation [] 2 2).floorMask 2 = 0 ∧
    (∀ i < 4, (buildMasksFromSegmentation [] 2 2).floorMask i = 0) := by
  refine ⟨by norm_num, by decide, by decide⟩

/- Claim C9: idempotence of largestComponent.  The development proves that
   the flood fill computes exactly the reachable set of its seed through
   unvisited on-pixels, that every component produced by the scan is
   reach-closed with a row-major-minimal seed (CompOK), and that running the
   scan on the indicator mask of such a component returns that component. -/

theorem idxZ_natCast (w : ℕ) (x y : ℕ) : idxZ w ((x : ℤ), (y : ℤ)) = y * w + x := by
  unfold idxZ
  push_cast
  omega

theorem idxZ_lt_of_inB {w h : ℕ} {p : ℤ × ℤ} (hp : inB w h p) : idxZ w p < w * h := by
  obtain ⟨h1, h2, h3, h4⟩ := hp
  have hw0 : (0 : ℤ) ≤ (w : ℤ) := by positivity
  have hkey : p.2 * (w : ℤ) + p.1 < (w : ℤ) * (h : ℤ) := by
    nlinarith [mul_le_mul_of_nonneg_right (show p.2 + 1 ≤ (h : ℤ) by omega) hw0]
  have hnn : (0 : ℤ) ≤ p.2 * (w : ℤ) + p.1 := add_nonneg (mul_nonneg h3 hw0) h1
  unfold idxZ
  rw [Int.toNat_lt hnn]
  push_cast
  linarith

theorem idxZ_inj_of_inB {w h : ℕ} {p q : ℤ × ℤ} (hp : inB w h p) (hq : inB w h q)
    (he : idxZ w p = idxZ w q) : p = q := by
  obtain ⟨hp1, hp2, hp3, hp4⟩ := hp
  obtain ⟨hq1, hq2, hq3, hq4⟩ := hq
  have hw0 : (0 : ℤ) ≤ (w : ℤ) := by positivity
  have hpn : 0 ≤ p.2 * (w : ℤ) := mul_nonneg hp3 hw0
  have hqn : 0 ≤ q.2 * (w : ℤ) := mul_nonneg hq3 hw0
  unfold idxZ at he
  have he' : p.2 * (w : ℤ) + p.1 = q.2 * (w : ℤ) + q.1 := by omega
  have hw : (0 : ℤ) < (w : ℤ) := by omega
  have hx : p.1 = q.1 := by
    have e1 : (p.2 * (w : ℤ) + p.1) % w = p.1 := by
      rw [show p.2 * (w : ℤ) + p.1 = p.1 + (w : ℤ) * p.2 by ring]
      rw [Int.add_mul_emod_self_left]
      exact Int.emod_eq_of_lt hp1 hp2
    have e2 : (q.2 * (w : ℤ) + q.1) % w = q.1 := by
      rw [show q.2 * (w : ℤ) + q.1 = q.1 + (w : ℤ) * q.2 by ring]
      rw [Int.add_mul_emod_self_left]
      exact Int.emod_eq_of_lt hq1 hq2
    rw [← e1, ← e2, he']
  have hy : p.2 = q.2 := by
    have hmul : p.2 * (w : ℤ) = q.2 * (w : ℤ) := by omega
    exact mul_right_cancel₀ (by omega) hmul
  exact Prod.ext hx hy

theorem nodup_length_le (l : List ℕ) (N : ℕ) (hnd : l.Nodup) (hlt : ∀ j ∈ l, j < N) :
    l.length ≤ N := by
  classical
  have hcard : l.toFinset.card = l.length := List.toFinset_card_of_nodup hnd
  have hsub : l.toFinset ⊆ Finset.range N := by
    intro a ha
    rw [List.mem_toFinset] at ha
    rw [Finset.mem_range]
    exact hlt a ha
  have := Finset.card_le_card hsub
  rw [Finset.card_range] at this
  omega

section FloodFillLemmas

variable (w h : ℕ) (nbrs : ℤ × ℤ → List (ℤ × ℤ)) (ok : ℕ → Bool)

theorem ffAux_zero (stack : List (ℤ × ℤ)) (V c : List ℕ) :
    ffAux w h nbrs ok 0 stack V c = (V, c) := rfl

theorem ffAux_nilstack (fuel : ℕ) (V c : List ℕ) :
    ffAux w h nbrs ok (fuel + 1) [] V c = (V, c) := rfl

theorem ffAux_cons (fuel : ℕ) (p : ℤ × ℤ) (rest : List (ℤ × ℤ)) (V c : List ℕ) :
    ffAux w h nbrs ok (fuel + 1) (p :: rest) V c =
      if ¬ inB w h p ∨ idxZ w p ∈ V ∨ ok (idxZ w p) = false then
        ffAux w h nbrs ok fuel rest V c
      else
        ffAux w h nbrs ok fuel (nbrs p ++ rest) (idxZ w p :: V) (c ++ [idxZ w p]) := rfl

theorem ffAux_visited_mono :
    ∀ (fuel : ℕ) (stack : List (ℤ × ℤ)) (V c : List ℕ) (j : ℕ),
    j ∈ V → j ∈ (ffAux w h nbrs ok fuel stack V c).1 := by
  intro fuel
  induction fuel with
  | zero => intro stack V c j hj; exact hj
  | succ n ih =>
    intro stack V c j hj
    cases stack with
    | nil => exact hj
    | cons p rest =>
      rw [ffAux_cons]
      by_cases hcond : ¬ inB w h p ∨ idxZ w p ∈ V ∨ ok (idxZ w p) = false
      · rw [if_pos hcond]
        exact ih rest V c j hj
      · rw [if_neg hcond]
        exact ih _ _ _ j (List.mem_cons_of_mem _ hj)

theorem ffAux_comp_iff :
    ∀ (fuel : ℕ) (stack : List (ℤ × ℤ)) (V c : List ℕ) (j : ℕ),
    j ∈ (ffAux w h nbrs ok fuel stack V c).2 ↔
      j ∈ c ∨ (j ∈ (ffAux w h nbrs ok fuel stack V c).1 ∧ j ∉ V) := by
  intro fuel
  induction fuel with
  | zero =>
    intro stack V c j
    constructor
    · exact fun hc => Or.inl hc
    · rintro (hc | ⟨h1, h2⟩)
      · exact hc
      · exact absurd h1 h2
  | succ n ih =>
    intro stack V c j
    cases stack with
    | nil =>
      constructor
      · exact fun hc => Or.inl hc
      · rintro (hc | ⟨h1, h2⟩)
        · exact hc
        · exact absurd h1 h2
    | cons p rest =>
      rw [ffAux_cons]
      by_cases hcond : ¬ inB w h p ∨ idxZ w p ∈ V ∨ ok (idxZ w p) = false
      · rw [if_pos hcond]
        exact ih rest V c j
      · rw [if_neg hcond]
        push_neg at hcond
        obtain ⟨hinB, hnmem, hok⟩ := hcond
        constructor
        · intro hres
          rcases (ih _ _ _ j).mp hres with hc | ⟨h1, h2⟩
          · rcases List.mem_append.mp hc with hc1 | hc1
            · exact Or.inl hc1
            · have hj : j = idxZ w p := List.mem_singleton.mp hc1
              refine Or.inr ⟨?_, hj ▸ hnmem⟩
              exact ffAux_visited_mono w h nbrs ok n _ _ _ j
                (hj ▸ List.mem_cons_self _ _)
          · exact Or.inr ⟨h1, fun hv => h2 (List.mem_cons_of_mem _ hv)⟩
        · rintro (hc | ⟨h1, h2⟩)
          · exact (ih _ _ _ j).mpr (Or.inl (List.mem_append_left _ hc))
          · by_cases hjp : j = idxZ w p
            · exact (ih _ _ _ j).mpr
                (Or.inl (List.mem_append_right _ (hjp ▸ List.mem_singleton_self _)))
            · refine (ih _ _ _ j).mpr (Or.inr ⟨h1, ?_⟩)
              intro hv
              rcases List.mem_cons.mp hv with hv1 | hv1
              · exact hjp hv1
              · exact h2 hv1

end FloodFillLemmas

section FloodFillLemmas2

variable (w h : ℕ) (nbrs : ℤ × ℤ → List (ℤ × ℤ)) (ok : ℕ → Bool)

theorem goodPix_mono {V : List ℕ} (x : ℕ) {p : ℤ × ℤ}
    (hg : goodPix w h ok (x :: V) p) : goodPix w h ok V p :=
  ⟨hg.1, hg.2.1, fun hm => hg.2.2 (List.mem_cons_of_mem _ hm)⟩

theorem ffReach_mono {V : List ℕ} (x : ℕ) {s q : ℤ × ℤ}
    (hr : ffReach w h nbrs ok (x :: V) s q) : ffReach w h nbrs ok V s q := by
  refine ⟨goodPix_mono w h ok x hr.1, ?_⟩
  exact Relation.ReflTransGen.mono
    (fun a b hab => ⟨hab.1, goodPix_mono w h ok x hab.2⟩) hr.2

theorem ffReach_target_good {V : List ℕ} {s q : ℤ × ℤ}
    (hr : ffReach w h nbrs ok V s q) : goodPix w h ok V q := by
  obtain ⟨hs, hpath⟩ := hr
  induction hpath with
  | refl => exact hs
  | tail _ hstep ih => exact hstep.2

theorem ffAux_visited_nodup :
    ∀ (fuel : ℕ) (stack : List (ℤ × ℤ)) (V c : List ℕ),
    V.Nodup → (ffAux w h nbrs ok fuel stack V c).1.Nodup := by
  intro fuel
  induction fuel with
  | zero => intro stack V c hnd; exact hnd
  | succ n ih =>
    intro stack V c hnd
    cases stack with
    | nil => exact hnd
    | cons p rest =>
      rw [ffAux_cons]
      by_cases hcond : ¬ inB w h p ∨ idxZ w p ∈ V ∨ ok (idxZ w p) = false
      · rw [if_pos hcond]
        exact ih rest V c hnd
      · rw [if_neg hcond]
        push_neg at hcond
        exact ih _ _ _ (List.nodup_cons.mpr ⟨hcond.2.1, hnd⟩)

theorem ffAux_visited_sound :
    ∀ (fuel : ℕ) (stack : List (ℤ × ℤ)) (V c : List ℕ) (j : ℕ),
    j ∈ (ffAux w h nbrs ok fuel stack V c).1 →
    j ∈ V ∨ ∃ p ∈ stack, ∃ q, ffReach w h nbrs ok V p q ∧ idxZ w q = j := by
  intro fuel
  induction fuel with
  | zero => intro stack V c j hj; exact Or.inl hj
  | succ n ih =>
    intro stack V c j hj
    cases stack with
    | nil => exact Or.inl hj
    | cons p rest =>
      rw [ffAux_cons] at hj
      by_cases hcond : ¬ inB w h p ∨ idxZ w p ∈ V ∨ ok (idxZ w p) = false
      · rw [if_pos hcond] at hj
        rcases ih rest V c j hj with hv | ⟨p', hp', q, hr, hq⟩
        · exact Or.inl hv
        · exact Or.inr ⟨p', List.mem_cons_of_mem _ hp', q, hr, hq⟩
      · rw [if_neg hcond] at hj
        push_neg at hcond
        obtain ⟨hinB, hnmem, hok⟩ := hcond
        have hgood : goodPix w h ok V p := ⟨hinB, by simpa using hok, hnmem⟩
        rcases ih _ _ _ j hj with hv | ⟨p', hp', q, hr, hq⟩
        · rcases List.mem_cons.mp hv with hv1 | hv1
          · exact Or.inr ⟨p, List.mem_cons_self _ _, p,
              ⟨hgood, Relation.ReflTransGen.refl⟩, hv1.symm⟩
          · exact Or.inl hv1
        · have hrV : ffReach w h nbrs ok V p' q := ffReach_mono w h nbrs ok _ hr
          rcases List.mem_append.mp hp' with hn | hn
          · refine Or.inr ⟨p, List.mem_cons_self _ _, q, ⟨hgood, ?_⟩, hq⟩
            exact Relation.ReflTransGen.head ⟨hn, hrV.1⟩ hrV.2
          · exact Or.inr ⟨p', List.mem_cons_of_mem _ hn, q, hrV, hq⟩

theorem ffAux_visited_lt :
    ∀ (fuel : ℕ) (stack : List (ℤ × ℤ)) (V c : List ℕ),
    (∀ j ∈ V, j < w * h) → ∀ j ∈ (ffAux w h nbrs ok fuel stack V c).1, j < w * h := by
  intro fuel
  induction fuel with
  | zero => intro stack V c hV j hj; exact hV j hj
  | succ n ih =>
    intro stack V c hV j hj
    cases stack with
    | nil => exact hV j hj
    | cons p rest =>
      rw [ffAux_cons] at hj
      by_cases hcond : ¬ inB w h p ∨ idxZ w p ∈ V ∨ ok (idxZ w p) = false
      · rw [if_pos hcond] at hj
        exact ih rest V c hV j hj
      · rw [if_neg hcond] at hj
        push_neg at hcond
        refine ih _ _ _ ?_ j hj
        intro j' hj'
        rcases List.mem_cons.mp hj' with hj1 | hj1
        · exact hj1 ▸ idxZ_lt_of_inB hcond.1
        · exact hV j' hj1

theorem ffAux_complete (hnb4 : ∀ p, (nbrs p).length = 4) :
    ∀ (fuel : ℕ) (stack : List (ℤ × ℤ)) (V c : List ℕ),
    V.Nodup → (∀ j ∈ V, j < w * h) →
    5 * (w * h - V.length) + stack.length ≤ fuel →
    (∀ p ∈ stack, goodPix w h ok V p → idxZ w p ∈ (ffAux w h nbrs ok fuel stack V c).1) ∧
    (∀ q, inB w h q → idxZ w q ∈ (ffAux w h nbrs ok fuel stack V c).1 → idxZ w q ∉ V →
      ∀ b ∈ nbrs q, inB w h b → ok (idxZ w b) = true →
        idxZ w b ∈ (ffAux w h nbrs ok fuel stack V c).1) := by
  intro fuel
  induction fuel with
  | zero =>
    intro stack V c hnd hV hfuel
    cases stack with
    | nil =>
      refine ⟨fun p hp _ => absurd hp (List.not_mem_nil p), ?_⟩
      intro q _ hq hqn
      exact absurd hq hqn
    | cons p rest => simp at hfuel
  | succ n ih =>
    intro stack V c hnd hV hfuel
    cases stack with
    | nil =>
      refine ⟨fun p hp _ => absurd hp (List.not_mem_nil p), ?_⟩
      intro q _ hq hqn
      exact absurd hq hqn
    | cons p rest =>
      rw [ffAux_cons]
      by_cases hcond : ¬ inB w h p ∨ idxZ w p ∈ V ∨ ok (idxZ w p) = false
      · rw [if_pos hcond]
        have hfuel' : 5 * (w * h - V.length) + rest.length ≤ n := by
          simp only [List.length_cons] at hfuel
          omega
        obtain ⟨iha, ihb⟩ := ih rest V c hnd hV hfuel'
        refine ⟨?_, ihb⟩
        intro p' hp' hg'
        rcases List.mem_cons.mp hp' with hp1 | hp1
        · subst hp1
          exfalso
          rcases hcond with hc | hc | hc
          · exact hc hg'.1
          · exact hg'.2.2 hc
          · rw [hg'.2.1] at hc
            cases hc
        · exact iha p' hp1 hg'
      · rw [if_neg hcond]
        push_neg at hcond
        obtain ⟨hinB, hnmem, hok⟩ := hcond
        have hoktrue : ok (idxZ w p) = true := by simpa using hok
        have hplt : idxZ w p < w * h := idxZ_lt_of_inB hinB
        have hnd' : (idxZ w p :: V).Nodup := List.nodup_cons.mpr ⟨hnmem, hnd⟩
        have hV' : ∀ j ∈ idxZ w p :: V, j < w * h := by
          intro j hj
          rcases List.mem_cons.mp hj with hj1 | hj1
          · exact hj1 ▸ hplt
          · exact hV j hj1
        have hVlt : V.length < w * h := by
          have := nodup_length_le (idxZ w p :: V) (w * h) hnd' hV'
          simp only [List.length_cons] at this
          omega
        have hfuel' : 5 * (w * h - (idxZ w p :: V).length) + (nbrs p ++ rest).length ≤ n := by
          simp only [List.length_cons, List.length_append, hnb4 p] at *
          omega
        obtain ⟨iha, ihb⟩ := ih (nbrs p ++ rest) (idxZ w p :: V) (c ++ [idxZ w p]) hnd' hV' hfuel'
        have hmonoV : ∀ j ∈ idxZ w p :: V,
            j ∈ (ffAux w h nbrs ok n (nbrs p ++ rest) (idxZ w p :: V) (c ++ [idxZ w p])).1 :=
          fun j hj => ffAux_visited_mono w h nbrs ok n _ _ _ j hj
        constructor
        · intro p' hp' hg'
          rcases List.mem_cons.mp hp' with hp1 | hp1
          · exact hp1 ▸ hmonoV (idxZ w p) (List.mem_cons_self _ _)
          · by_cases hmem : idxZ w p' ∈ idxZ w p :: V
            · exact hmonoV _ hmem
            · exact iha p' (List.mem_append_right _ hp1) ⟨hg'.1, hg'.2.1, hmem⟩
        · intro q hqB hqres hqV b hbn hbB hbok
          by_cases hqp : idxZ w q = idxZ w p
          · have hqpe : q = p := idxZ_inj_of_inB hqB hinB hqp
            subst hqpe
            by_cases hbmem : idxZ w b ∈ idxZ w q :: V
            · exact hmonoV _ hbmem
            · exact iha b (List.mem_append_left _ hbn) ⟨hbB, hbok, hbmem⟩
          · refine ihb q hqB hqres ?_ b hbn hbB hbok
            intro hv
            rcases List.mem_cons.mp hv with hv1 | hv1
            · exact hqp hv1
            · exact hqV hv1

end FloodFillLemmas2

section FloodFillLemmas3

variable (w h : ℕ) (nbrs : ℤ × ℤ → List (ℤ × ℤ)) (ok : ℕ → Bool)

theorem floodFill_run_char (hnb4 : ∀ p, (nbrs p).length = 4) (V : List ℕ)
    (hnd : V.Nodup) (hV : ∀ j ∈ V, j < w * h) {s : ℤ × ℤ} (hs : goodPix w h ok V s) :
    ∀ j, j ∈ (ffAux w h nbrs ok (ffFuel w h) [s] V []).2 ↔
      ∃ q, ffReach w h nbrs ok V s q ∧ idxZ w q = j := by
  have hfuel : 5 * (w * h - V.length) + ([s] : List (ℤ × ℤ)).length ≤ ffFuel w h := by
    unfold ffFuel
    simp only [List.length_singleton]
    omega
  obtain ⟨ca, cb⟩ := ffAux_complete w h nbrs ok hnb4 (ffFuel w h) [s] V [] hnd hV hfuel
  have hreachmem : ∀ q, ffReach w h nbrs ok V s q →
      idxZ w q ∈ (ffAux w h nbrs ok (ffFuel w h) [s] V []).1 ∧ idxZ w q ∉ V := by
    intro q hr
    obtain ⟨hsg, hpath⟩ := hr
    induction hpath with
    | refl => exact ⟨ca s (List.mem_singleton_self s) hsg, hsg.2.2⟩
    | @tail y q' hpath' hstep ih' =>
      have hyg : goodPix w h ok V y := ffReach_target_good w h nbrs ok ⟨hsg, hpath'⟩
      exact ⟨cb y hyg.1 ih'.1 ih'.2 q' hstep.1 hstep.2.1 hstep.2.2.1, hstep.2.2.2⟩
  intro j
  constructor
  · intro hj
    rcases (ffAux_comp_iff w h nbrs ok (ffFuel w h) [s] V [] j).mp hj with hc | ⟨h1, h2⟩
    · cases hc
    · rcases ffAux_visited_sound w h nbrs ok (ffFuel w h) [s] V [] j h1 with hv | hex
      · exact absurd hv h2
      · obtain ⟨p, hp, q, hr, hq⟩ := hex
        rw [List.mem_singleton] at hp
        exact ⟨q, hp ▸ hr, hq⟩
  · rintro ⟨q, hr, hq⟩
    have hm := hreachmem q hr
    exact (ffAux_comp_iff w h nbrs ok (ffFuel w h) [s] V [] j).mpr
      (Or.inr ⟨hq ▸ hm.1, hq ▸ hm.2⟩)

theorem fill_CompOK (hnb4 : ∀ p, (nbrs p).length = 4) (V : List ℕ)
    (hnd : V.Nodup) (hV : ∀ j ∈ V, j < w * h) {s : ℤ × ℤ} (hs : goodPix w h ok V s)
    (hmin : ∀ j, j < w * h → ok j = true → j ∉ V → idxZ w s ≤ j) :
    CompOK w h nbrs (ffAux w h nbrs ok (ffFuel w h) [s] V []).2 := by
  have hchar := floodFill_run_char w h nbrs ok hnb4 V hnd hV hs
  refine ⟨s, hs.1, ?_, ?_, ?_, ?_⟩
  · exact (hchar (idxZ w s)).mpr ⟨s, ⟨hs, Relation.ReflTransGen.refl⟩, rfl⟩
  · intro j hj
    obtain ⟨q, hr, hq⟩ := (hchar j).mp hj
    have hg := ffReach_target_good w h nbrs ok hr
    exact hmin j (hq ▸ idxZ_lt_of_inB hg.1) (hq ▸ hg.2.1) (hq ▸ hg.2.2)
  · intro j hj
    obtain ⟨q, hr, hq⟩ := (hchar j).mp hj
    exact hq ▸ idxZ_lt_of_inB (ffReach_target_good w h nbrs ok hr).1
  · intro j hj
    obtain ⟨q, hr, hq⟩ := (hchar j).mp hj
    obtain ⟨hsg, hpath⟩ := hr
    refine ⟨q, hq, (ffReach_target_good w h nbrs ok ⟨hsg, hpath⟩).1, ?_⟩
    clear hq hj
    induction hpath with
    | refl => exact Relation.ReflTransGen.refl
    | @tail y q' hpath' hstep ih' =>
      refine Relation.ReflTransGen.tail ih' ⟨hstep.1, hstep.2.1, ?_⟩
      exact (hchar (idxZ w q')).mpr
        ⟨q', ⟨hsg, Relation.ReflTransGen.tail hpath' hstep⟩, rfl⟩

end FloodFillLemmas3

theorem pixelSweep_eq (w h : ℕ) :
    pixelSweep w h = (List.range (w * h)).map (fun i => (i % w, i / w)) := by
  induction h with
  | zero => simp [pixelSweep]
  | succ n ih =>
    have hstep : pixelSweep w (n + 1) =
        pixelSweep w n ++ (List.range w).map (fun x => (x, n)) := by
      unfold pixelSweep
      rw [List.range_succ, List.flatMap_append]
      simp
    rw [hstep, ih]
    have hr : w * (n + 1) = w * n + w := by ring
    rw [hr, List.range_add, List.map_append, List.map_map]
    have hseg : ((List.range w).map (fun x => (x, n)) : List (ℕ × ℕ)) =
        (List.range w).map ((fun i => (i % w, i / w)) ∘ (fun x => w * n + x)) := by
      apply List.map_congr_left
      intro t ht
      rw [List.mem_range] at ht
      have hw : 0 < w := lt_of_le_of_lt (Nat.zero_le t) ht
      simp only [Function.comp_apply]
      rw [Prod.mk.injEq]
      constructor
      · show t = (w * n + t) % w
        rw [show w * n + t = t + n * w by ring, Nat.add_mul_mod_self_right]
        exact (Nat.mod_eq_of_lt ht).symm
      · show n = (w * n + t) / w
        rw [show w * n + t = t + n * w by ring, Nat.add_mul_div_right _ _ hw]
        rw [Nat.div_eq_of_lt ht]
        omega
    rw [hseg]

theorem pixelSweep_pairwise (w h : ℕ) :
    List.Pairwise (fun p q : ℕ × ℕ => p.2 * w + p.1 < q.2 * w + q.1) (pixelSweep w h) := by
  rw [pixelSweep_eq]
  rw [List.pairwise_map]
  have hlt := List.pairwise_lt_range (w * h)
  refine hlt.imp_of_mem ?_
  intro a b ha hb hab
  rw [List.mem_range] at ha hb
  show a / w * w + a % w < b / w * w + b % w
  rw [Nat.mul_comm (a / w) w, Nat.mul_comm (b / w) w, Nat.div_add_mod, Nat.div_add_mod]
  exact hab

theorem nbrsDFS_len : ∀ p : ℤ × ℤ, (nbrsDFS p).length = 4 := fun _ => rfl

theorem pixelSweep_mem_bounds (w h : ℕ) :
    ∀ p ∈ pixelSweep w h, p.1 < w ∧ p.2 < h := by
  intro p hp
  rw [pixelSweep_eq, List.mem_map] at hp
  obtain ⟨i, hi, rfl⟩ := hp
  rw [List.mem_range] at hi
  have hw : 0 < w := by
    rcases Nat.eq_zero_or_pos w with h0 | h0
    · subst h0; simp at hi
    · exact h0
  constructor
  · show i % w < w
    exact Nat.mod_lt _ hw
  · show i / w < h
    exact Nat.div_lt_of_lt_mul hi

theorem lcStep_fill (w h : ℕ) (m : ℕ → ℚ) (acc : List ℕ × List (List ℕ)) (p : ℕ × ℕ)
    (hcond : (1 : ℚ)/2 < m (p.2 * w + p.1) ∧ (p.2 * w + p.1) ∉ acc.1) :
    lcStep w h m acc p =
      ((floodFillMasks w h m (p.1 : ℤ) (p.2 : ℤ) acc.1).1,
        acc.2 ++ [(floodFillMasks w h m (p.1 : ℤ) (p.2 : ℤ) acc.1).2]) := by
  unfold lcStep
  rw [if_pos hcond]

theorem lcFold_inv (w h : ℕ) (m : ℕ → ℚ) :
    ∀ (l : List (ℕ × ℕ)) (acc : List ℕ × List (List ℕ)),
    acc.1.Nodup →
    (∀ j ∈ acc.1, j < w * h) →
    List.Pairwise (fun p q : ℕ × ℕ => p.2 * w + p.1 < q.2 * w + q.1) l →
    (∀ p ∈ l, p.1 < w ∧ p.2 < h) →
    (∀ j, j < w * h → (1 : ℚ)/2 < m j → j ∉ acc.1 → ∃ p ∈ l, p.2 * w + p.1 = j) →
    (∀ c ∈ acc.2, CompOK w h nbrsDFS c) →
    ∀ c ∈ (l.foldl (lcStep w h m) acc).2, CompOK w h nbrsDFS c := by
  intro l
  induction l with
  | nil => intro acc _ _ _ _ _ hacc c hc; exact hacc c hc
  | cons p t ih =>
    intro acc hnd hbnd hpw hdim hcov hacc
    rw [List.foldl_cons]
    by_cases hcond : (1 : ℚ)/2 < m (p.2 * w + p.1) ∧ (p.2 * w + p.1) ∉ acc.1
    · rw [lcStep_fill w h m acc p hcond]
      have hffr : floodFillMasks w h m (p.1 : ℤ) (p.2 : ℤ) acc.1 =
          ffAux w h nbrsDFS (fun i => decide ((1 : ℚ)/2 < m i)) (ffFuel w h)
            [((p.1 : ℤ), (p.2 : ℤ))] acc.1 [] := rfl
      rw [hffr]
      have hb := hdim p (List.mem_cons_self p t)
      have hs : goodPix w h (fun i => decide ((1 : ℚ)/2 < m i)) acc.1
          (((p.1 : ℤ), (p.2 : ℤ)) : ℤ × ℤ) := by
        refine ⟨⟨Int.natCast_nonneg _, by show ((p.1 : ℤ)) < (w : ℤ); exact_mod_cast hb.1,
          Int.natCast_nonneg _, by show ((p.2 : ℤ)) < (h : ℤ); exact_mod_cast hb.2⟩, ?_, ?_⟩
        · rw [idxZ_natCast]
          exact decide_eq_true hcond.1
        · rw [idxZ_natCast]
          exact hcond.2
      have hmin : ∀ j, j < w * h → (fun i => decide ((1 : ℚ)/2 < m i)) j = true →
          j ∉ acc.1 → idxZ w (((p.1 : ℤ), (p.2 : ℤ)) : ℤ × ℤ) ≤ j := by
        intro j hjlt hok hjn
        have hon : (1 : ℚ)/2 < m j := of_decide_eq_true hok
        obtain ⟨p', hp', hpj⟩ := hcov j hjlt hon hjn
        rw [idxZ_natCast]
        rcases List.mem_cons.mp hp' with he | hmem
        · subst he; omega
        · have := (List.pairwise_cons.mp hpw).1 p' hmem
          omega
      apply ih
      · exact ffAux_visited_nodup w h nbrsDFS _ (ffFuel w h) _ acc.1 [] hnd
      · exact ffAux_visited_lt w h nbrsDFS _ (ffFuel w h) _ acc.1 [] hbnd
      · exact (List.pairwise_cons.mp hpw).2
      · intro p' hp'; exact hdim p' (List.mem_cons_of_mem _ hp')
      · intro j hjlt hon hjnV
        have hjnacc : j ∉ acc.1 := fun hm =>
          hjnV (ffAux_visited_mono w h nbrsDFS _ (ffFuel w h) _ acc.1 [] j hm)
        obtain ⟨p', hp', hpj⟩ := hcov j hjlt hon hjnacc
        rcases List.mem_cons.mp hp' with he | hmem
        · exfalso
          have hfuel : 5 * (w * h - acc.1.length) +
              ([(((p.1 : ℤ), (p.2 : ℤ)) : ℤ × ℤ)] : List (ℤ × ℤ)).length ≤ ffFuel w h := by
            unfold ffFuel
            simp only [List.length_singleton]
            omega
          have hvis := (ffAux_complete w h nbrsDFS (fun i => decide ((1 : ℚ)/2 < m i))
            nbrsDFS_len (ffFuel w h) [((p.1 : ℤ), (p.2 : ℤ))] acc.1 [] hnd hbnd hfuel).1
            ((p.1 : ℤ), (p.2 : ℤ)) (List.mem_singleton_self _) hs
          rw [idxZ_natCast] at hvis
          subst he
          rw [hpj] at hvis
          exact hjnV hvis
        · exact ⟨p', hmem, hpj⟩
      · intro c hc
        rcases List.mem_append.mp hc with hold | hnew
        · exact hacc c hold
        · rw [List.mem_singleton] at hnew
          subst hnew
          exact fill_CompOK w h nbrsDFS _ nbrsDFS_len acc.1 hnd hbnd hs hmin
    · have hstep : lcStep w h m acc p = acc := by
        unfold lcStep
        rw [if_neg hcond]
      rw [hstep]
      apply ih
      · exact hnd
      · exact hbnd
      · exact (List.pairwise_cons.mp hpw).2
      · intro p' hp'; exact hdim p' (List.mem_cons_of_mem _ hp')
      · intro j hjlt hon hjn
        obtain ⟨p', hp', hpj⟩ := hcov j hjlt hon hjn
        rcases List.mem_cons.mp hp' with he | hmem
        · exfalso
          subst he
          rw [hpj] at hcond
          exact hcond ⟨hon, hjn⟩
        · exact ⟨p', hmem, hpj⟩
      · exact hacc

theorem foldlChoose_mem :
    ∀ (comps : List (List ℕ)) (init : List ℕ),
    comps.foldl (fun best c => if c.length > best.length then c else best) init = init ∨
      comps.foldl (fun best c => if c.length > best.length then c else best) init ∈ comps := by
  intro comps
  induction comps with
  | nil => intro init; exact Or.inl rfl
  | cons a t ih =>
    intro init
    rw [List.foldl_cons]
    rcases ih (if a.length > init.length then a else init) with he | hm
    · rw [he]
      by_cases hcn : a.length > init.length
      · rw [if_pos hcn]
        exact Or.inr (List.mem_cons_self a t)
      · rw [if_neg hcn]
        exact Or.inl rfl
    · exact Or.inr (List.mem_cons_of_mem a hm)

theorem chooseLargest_mem (comps : List (List ℕ)) (hne : comps ≠ []) :
    chooseLargest comps ∈ comps := by
  unfold chooseLargest
  rcases foldlChoose_mem comps (comps.headD []) with he | hm
  · rw [he]
    cases comps with
    | nil => exact absurd rfl hne
    | cons a t => exact List.mem_cons_self a t
  · exact hm

theorem largestComponent_structure (m : ℕ → ℚ) (w h : ℕ) :
    (∀ i, largestComponent m w h i = 0) ∨
      ∃ c, CompOK w h nbrsDFS c ∧ ∀ i, largestComponent m w h i = indicatorQ c i := by
  have hall : ∀ c ∈ (lcScan w h m).2, CompOK w h nbrsDFS c := by
    unfold lcScan
    apply lcFold_inv w h m (pixelSweep w h) ([], [])
    · exact List.nodup_nil
    · intro j hj; cases hj
    · exact pixelSweep_pairwise w h
    · exact pixelSweep_mem_bounds w h
    · intro j hjlt hon _
      refine ⟨(j % w, j / w), ?_, ?_⟩
      · rw [pixelSweep_eq]
        exact List.mem_map.mpr ⟨j, List.mem_range.mpr hjlt, rfl⟩
      · show j / w * w + j % w = j
        rw [Nat.mul_comm (j / w) w, Nat.div_add_mod]
    · intro c hc; cases hc
  cases hcomps : (lcScan w h m).2 with
  | nil =>
    left
    intro i
    unfold largestComponent
    rw [hcomps]
    simp [chooseLargest]
  | cons a t =>
    right
    refine ⟨chooseLargest (lcScan w h m).2, ?_, fun i => rfl⟩
    apply hall
    apply chooseLargest_mem
    rw [hcomps]
    exact List.cons_ne_nil a t

theorem honc_indicator (c : List ℕ) : ∀ j, ((1 : ℚ)/2 < indicatorQ c j ↔ j ∈ c) := by
  intro j
  unfold indicatorQ
  by_cases hj : j ∈ c
  · rw [if_pos hj]
    constructor
    · intro _; exact hj
    · intro _; norm_num
  · rw [if_neg hj]
    constructor
    · intro hlt; norm_num at hlt
    · intro hm; exact absurd hm hj

theorem chooseLargest_single (x : List ℕ) : chooseLargest [x] = x := by
  show (if x.length > x.length then x else x) = x
  exact ite_self x

theorem largestComponent_of_CompOK (w h : ℕ) (c : List ℕ) (hc : CompOK w h nbrsDFS c) :
    largestComponent (indicatorQ c) w h = indicatorQ c := by
  obtain ⟨s, hsB, hsc, hsmin, hclt, hreach⟩ := hc
  have honc := honc_indicator c
  have hw0 : 0 < w := by
    have : (0 : ℤ) < (w : ℤ) := lt_of_le_of_lt hsB.1 hsB.2.1
    exact_mod_cast this
  have hj0lt : idxZ w s < w * h := idxZ_lt_of_inB hsB
  have hidx0 : idxZ w s / w * w + idxZ w s % w = idxZ w s := by
    rw [Nat.mul_comm (idxZ w s / w) w, Nat.div_add_mod]
  obtain ⟨k, hk⟩ : ∃ k, w * h = (idxZ w s + 1) + k := ⟨w * h - (idxZ w s + 1), by omega⟩
  have hsweep : pixelSweep w h =
      ((List.range (idxZ w s)).map (fun i => (i % w, i / w)) ++
          [(idxZ w s % w, idxZ w s / w)]) ++
        ((List.range k).map (fun t => idxZ w s + 1 + t)).map (fun i => (i % w, i / w)) := by
    rw [pixelSweep_eq, hk, List.range_add, List.range_succ, List.map_append, List.map_append]
    rfl
  have hA : ((List.range (idxZ w s)).map (fun i => (i % w, i / w))).foldl
      (lcStep w h (indicatorQ c)) (([], []) : List ℕ × List (List ℕ)) = ([], []) := by
    apply lcFold_noop
    intro p hp hon
    exfalso
    rw [List.mem_map] at hp
    obtain ⟨i, hi, rfl⟩ := hp
    rw [List.mem_range] at hi
    have hidx : (i % w, i / w).2 * w + (i % w, i / w).1 = i := by
      show i / w * w + i % w = i
      rw [Nat.mul_comm (i / w) w, Nat.div_add_mod]
    rw [hidx] at hon
    have hmem := (honc i).mp hon
    have := hsmin i hmem
    omega
  have hq0B : inB w h ((((idxZ w s % w : ℕ) : ℤ), ((idxZ w s / w : ℕ) : ℤ)) : ℤ × ℤ) := by
    refine ⟨Int.natCast_nonneg _, ?_, Int.natCast_nonneg _, ?_⟩
    · show ((idxZ w s % w : ℕ) : ℤ) < (w : ℤ)
      exact_mod_cast Nat.mod_lt _ hw0
    · show ((idxZ w s / w : ℕ) : ℤ) < (h : ℤ)
      exact_mod_cast Nat.div_lt_of_lt_mul hj0lt
  have hq0 : ((((idxZ w s % w : ℕ) : ℤ), ((idxZ w s / w : ℕ) : ℤ)) : ℤ × ℤ) = s := by
    apply idxZ_inj_of_inB hq0B hsB
    rw [idxZ_natCast, hidx0]
  have hs0 : goodPix w h (fun i => decide ((1 : ℚ)/2 < indicatorQ c i)) [] s := by
    refine ⟨hsB, ?_, List.not_mem_nil _⟩
    show decide ((1 : ℚ)/2 < indicatorQ c (idxZ w s)) = true
    exact decide_eq_true ((honc _).mpr hsc)
  have hchar := floodFill_run_char w h nbrsDFS (fun i => decide ((1 : ℚ)/2 < indicatorQ c i))
    nbrsDFS_len [] List.nodup_nil (fun j hj => absurd hj (List.not_mem_nil j)) hs0
  have hcompc : ∀ j, j ∈ (ffAux w h nbrsDFS (fun i => decide ((1 : ℚ)/2 < indicatorQ c i))
      (ffFuel w h) [s] [] []).2 ↔ j ∈ c := by
    intro j
    rw [hchar j]
    constructor
    · rintro ⟨q, hr, rfl⟩
      have hg := ffReach_target_good w h nbrsDFS _ hr
      exact (honc _).mp (of_decide_eq_true hg.2.1)
    · intro hjc
      obtain ⟨q, hqj, hqB, hpath⟩ := hreach j hjc
      refine ⟨q, ⟨hs0, ?_⟩, hqj⟩
      refine Relation.ReflTransGen.mono ?_ hpath
      intro a b hab
      exact ⟨hab.1, hab.2.1, decide_eq_true ((honc _).mpr hab.2.2), List.not_mem_nil _⟩
  have hcV : ∀ j ∈ c, j ∈ (ffAux w h nbrsDFS (fun i => decide ((1 : ℚ)/2 < indicatorQ c i))
      (ffFuel w h) [s] [] []).1 := by
    intro j hj
    have hcomp := (hcompc j).mpr hj
    rcases (ffAux_comp_iff w h nbrsDFS _ (ffFuel w h) [s] [] [] j).mp hcomp with h0 | ⟨h1, _⟩
    · cases h0
    · exact h1
  have hcnd : (1 : ℚ)/2 < indicatorQ c (idxZ w s / w * w + idxZ w s % w) ∧
      (idxZ w s / w * w + idxZ w s % w) ∉ (([], []) : List ℕ × List (List ℕ)).1 := by
    rw [hidx0]
    exact ⟨(honc _).mpr hsc, List.not_mem_nil _⟩
  have hff : floodFillMasks w h (indicatorQ c) ((idxZ w s % w : ℕ) : ℤ)
      ((idxZ w s / w : ℕ) : ℤ) (([], []) : List ℕ × List (List ℕ)).1 =
      ffAux w h nbrsDFS (fun i => decide ((1 : ℚ)/2 < indicatorQ c i)) (ffFuel w h) [s] [] [] := by
    show ffAux w h nbrsDFS (fun i => decide ((1 : ℚ)/2 < indicatorQ c i)) (ffFuel w h)
        [((((idxZ w s % w : ℕ) : ℤ), ((idxZ w s / w : ℕ) : ℤ)) : ℤ × ℤ)] [] [] = _
    rw [hq0]
  have hB2 : lcStep w h (indicatorQ c) ([], []) (idxZ w s % w, idxZ w s / w) =
      ((ffAux w h nbrsDFS (fun i => decide ((1 : ℚ)/2 < indicatorQ c i)) (ffFuel w h)
          [s] [] []).1,
        [(ffAux w h nbrsDFS (fun i => decide ((1 : ℚ)/2 < indicatorQ c i)) (ffFuel w h)
          [s] [] []).2]) := by
    rw [lcStep_fill w h (indicatorQ c) ([], []) (idxZ w s % w, idxZ w s / w) hcnd, hff]
    rfl
  have hC : ∀ acc : List ℕ × List (List ℕ),
      (∀ j ∈ c, j ∈ acc.1) →
      (((List.range k).map (fun t => idxZ w s + 1 + t)).map (fun i => (i % w, i / w))).foldl
        (lcStep w h (indicatorQ c)) acc = acc := by
    intro acc hacc
    apply lcFold_noop
    intro p hp hon
    rw [List.mem_map] at hp
    obtain ⟨i, hi, rfl⟩ := hp
    have hidx : (i % w, i / w).2 * w + (i % w, i / w).1 = i := by
      show i / w * w + i % w = i
      rw [Nat.mul_comm (i / w) w, Nat.div_add_mod]
    rw [hidx] at hon ⊢
    exact hacc i ((honc i).mp hon)
  funext i
  show (if i ∈ chooseLargest (lcScan w h (indicatorQ c)).2 then (1 : ℚ) else 0) = indicatorQ c i
  unfold lcScan
  rw [hsweep, List.foldl_append, List.foldl_append, hA, List.foldl_cons, List.foldl_nil, hB2]
  rw [hC _ hcV]
  rw [show (((ffAux w h nbrsDFS (fun i => decide ((1 : ℚ)/2 < indicatorQ c i)) (ffFuel w h)
        [s] [] []).1,
      [(ffAux w h nbrsDFS (fun i => decide ((1 : ℚ)/2 < indicatorQ c i)) (ffFuel w h)
        [s] [] []).2]) : List ℕ × List (List ℕ)).2 =
      [(ffAux w h nbrsDFS (fun i => decide ((1 : ℚ)/2 < indicatorQ c i)) (ffFuel w h)
        [s] [] []).2] from rfl]
  rw [chooseLargest_single]
  by_cases hic : i ∈ c
  · rw [if_pos ((hcompc i).mpr hic)]
    unfold indicatorQ
    rw [if_pos hic]
  · rw [if_neg (fun hm => hic ((hcompc i).mp hm))]
    unfold indicatorQ
    rw [if_neg hic]

/-- Claim C9: for every mask `M` and dimensions `(width, height)`, the
largest-connected-component extraction of masks.ts is idempotent:
`largestComponent (largestComponent M)` equals `largestComponent M`. -/
theorem largestComponent_idem (m : ℕ → ℚ) (w h : ℕ) :
    largestComponent (largestComponent m w h) w h = largestComponent m w h := by
  rcases largestComponent_structure m w h with hz | ⟨c, hcOK, hind⟩
  · have hfe : largestComponent m w h = fun _ => (0 : ℚ) := funext hz
    rw [hfe, largestComponent_all_off w h (by intro j; norm_num)]
  · have hfe : largestComponent m w h = indicatorQ c := funext hind
    rw [hfe]
    exact largestComponent_of_CompOK w h c hcOK
